import Mathlib

/-!
Verification of the file-set resolution, destination-path computation and
bounded-concurrency upload executor of the `upload-cloud-storage` GitHub
Action (TypeScript sources in `src/`).

Paths are modelled as lists of characters (`List Char`); the Node
`path.posix` primitives used by the source (`join`, `normalize`,
`basename`, `dirname`, `relative`, `resolve`) are embedded as executable
functions over `List Char`, following the reference implementation of
Node's `path` module.  The filesystem is modelled as the list of absolute
paths of the regular files it contains (`fsFiles`) plus the list of
directories (`fsDirs`), and the `fast-glob` library is modelled from its
documented behaviour (`absolute: true`, `cwd`, `dot: true`, default
`onlyFiles`): it returns the files in the `cwd` subtree whose
`cwd`-relative path matches the glob pattern, where `*` and `?` match
within one path segment and a bare `**` segment matches any number of
segments.
-/

/-- Character classified as whitespace by JavaScript `String.prototype.trim`
(we only model the ASCII whitespace characters, which is all the repository
ever feeds it). -/
def isJsWhitespace (c : Char) : Bool :=
  c = ' ' ∨ c = '\t' ∨ c = '\n' ∨ c = '\r'

/-- Model of JavaScript `String.prototype.trim` on character lists. -/
def trimChars (s : List Char) : List Char :=
  ((s.dropWhile isJsWhitespace).reverse.dropWhile isJsWhitespace).reverse

/-- Model of JavaScript `String.prototype.split(sep)` for a one-character
separator: the (never empty) list of chunks between occurrences of `sep`. -/
def splitOnChar (sep : Char) : List Char → List (List Char)
  | [] => [[]]
  | c :: cs =>
    if c = sep then [] :: splitOnChar sep cs
    else
      match splitOnChar sep cs with
      | p :: ps => (c :: p) :: ps
      | [] => [[c]]

/-- Model of `toPosixPath` from `@google-github-actions/actions-utils`:
replace every backslash with a forward slash. -/
def toPosixChars (s : List Char) : List Char :=
  s.map (fun c => if c = '\\' then '/' else c)

/-- Lexicographic comparison of character lists by code point; this is the
order used by JavaScript's default `Array.prototype.sort()` on the ASCII
strings produced by the repository. -/
def listCharLe : List Char → List Char → Bool
  | [], _ => true
  | _ :: _, [] => false
  | a :: as, b :: bs =>
    if a < b then true
    else if b < a then false
    else listCharLe as bs

/-- Insertion of an element into a sorted list, ordered by `listCharLe`. -/
def insertLe (a : List Char) : List (List Char) → List (List Char)
  | [] => [a]
  | b :: bs => if listCharLe a b then a :: b :: bs else b :: insertLe a bs

/-- Model of JavaScript `Array.prototype.sort()` (default string
comparison).  For the total order `listCharLe`, any correct sorting
algorithm returns the same list, so a structural insertion sort is an
extensionally faithful model. -/
def sortJS : List (List Char) → List (List Char)
  | [] => []
  | a :: as => insertLe a (sortJS as)

/-- Model of iterating a JavaScript `Set` built from a list
(`[...new Set(xs)]` keeps the first occurrence of each element, in
insertion order); `seen` accumulates the elements already emitted. -/
def dedupFirstSeenAux (seen : List (List Char)) : List (List Char) → List (List Char)
  | [] => []
  | x :: rest =>
    if x ∈ seen then dedupFirstSeenAux seen rest
    else x :: dedupFirstSeenAux (x :: seen) rest

/-- Model of `[...new Set(xs)]`: de-duplication keeping the first
occurrence of each element, preserving order. -/
def dedupFirstSeen (l : List (List Char)) : List (List Char) :=
  dedupFirstSeenAux [] l

/-! ### The Node `path.posix` model -/

/-- Raw slash-split of a path (chunks may be empty, e.g. for `//` or a
leading/trailing slash). -/
def splitSlash (s : List Char) : List (List Char) :=
  splitOnChar '/' s

/-- Path segments of a path string: the non-empty slash-separated chunks. -/
def pathSegs (s : List Char) : List (List Char) :=
  (splitSlash s).filter (· ≠ [])

/-- Core of Node's `normalizeString`: walk the slash-split chunks left to
right keeping an output stack (`acc`, stored reversed).  Empty chunks and
`.` are dropped; `..` pops the stack unless the stack is empty or its top
is itself `..`, in which case it is kept only for relative paths
(`allowAboveRoot`). -/
def normSegsAux (allowAboveRoot : Bool) (acc : List (List Char)) :
    List (List Char) → List (List Char)
  | [] => acc.reverse
  | s :: rest =>
    if s = [] ∨ s = ['.'] then normSegsAux allowAboveRoot acc rest
    else if s = ['.', '.'] then
      match acc with
      | t :: ts =>
        if t = ['.', '.'] then normSegsAux allowAboveRoot (s :: t :: ts) rest
        else normSegsAux allowAboveRoot ts rest
      | [] =>
        if allowAboveRoot then normSegsAux allowAboveRoot [s] rest
        else normSegsAux allowAboveRoot [] rest
    else normSegsAux allowAboveRoot (s :: acc) rest

/-- Normalized body of a path: its chunks walked by `normSegsAux` (with
`..` kept only for relative paths) and re-joined with `/`. -/
def normBody (s : List Char) : List Char :=
  List.intercalate ['/']
    (normSegsAux (!decide (s.head? = some '/')) [] (splitSlash s))

/-- Model of Node `path.posix.normalize`: the normalized body, with the
absolute marker and a trailing slash re-attached, and `.` for an empty
relative result. -/
def posixNormalize (s : List Char) : List Char :=
  if s = [] then ['.']
  else if normBody s = [] then
    if s.head? = some '/' then ['/']
    else if s.getLast? = some '/' then ['.', '/'] else ['.']
  else if s.head? = some '/' then
    '/' :: (if s.getLast? = some '/' then normBody s ++ ['/'] else normBody s)
  else (if s.getLast? = some '/' then normBody s ++ ['/'] else normBody s)

/-- Model of Node `path.posix.join`: drop empty arguments, join the rest
with `/`, and normalize; with no non-empty argument the result is `.`. -/
def posixJoin (parts : List (List Char)) : List Char :=
  if parts.filter (· ≠ []) = [] then ['.']
  else posixNormalize (List.intercalate ['/'] (parts.filter (· ≠ [])))

/-- Model of Node `path.posix.basename` (one-argument form): the last
non-empty slash-separated chunk, or the empty string if there is none. -/
def posixBasename (s : List Char) : List Char :=
  (((splitSlash s).reverse.dropWhile (· = [])).head?).getD []

/-- Model of Node `path.posix.dirname`: everything before the basename.
Trailing slashes are skipped first; if no further slash exists the result
is `/` for rooted paths and `.` otherwise. -/
def dirnameRev (s : List Char) : List Char :=
  ((s.drop 1).reverse.dropWhile (· = '/')).dropWhile (· ≠ '/')

def posixDirname (s : List Char) : List Char :=
  if s = [] then ['.']
  else if dirnameRev s = [] then
    (if s.head? = some '/' then ['/'] else ['.'])
  else if s.head? = some '/' ∧ (dirnameRev s).length = 1 then ['/', '/']
  else s.take (dirnameRev s).length

/-- Normalized segment list of an absolute path, as computed by Node
`path.posix.resolve` on an absolute argument (empty chunks, `.` and
unresolvable `..` are eliminated). -/
def resolveAbsSegs (s : List Char) : List (List Char) :=
  normSegsAux false [] (splitSlash s)

/-- Absolute path string built from a segment list (the normal form
produced by `path.posix.resolve`: no trailing slash, `/` for the root). -/
def absOf (segs : List (List Char)) : List Char :=
  '/' :: List.intercalate ['/'] segs

/-- Model of Node `path.posix.resolve(ws, p)` under the assumption that
`ws` is absolute (the repository always resolves against
`$GITHUB_WORKSPACE`, an absolute path): if `p` is absolute it is
normalized on its own, otherwise it is appended to `ws` first. -/
def posixResolve (ws p : List Char) : List Char :=
  if p.head? = some '/' then absOf (resolveAbsSegs p)
  else absOf (resolveAbsSegs (ws ++ '/' :: p))

/-- Length of the longest common prefix of two segment lists. -/
def commonPrefixLen : List (List Char) → List (List Char) → Nat
  | a :: as, b :: bs => if a = b then commonPrefixLen as bs + 1 else 0
  | _, _ => 0

/-- Segment list of `path.posix.relative` applied to two resolved absolute
paths given by their segment lists: drop the common prefix, go up with
`..` for what remains of `F`, then down into what remains of `T`. -/
def relSegsList (F T : List (List Char)) : List (List Char) :=
  List.replicate (F.length - commonPrefixLen F T) ['.', '.'] ++
    T.drop (commonPrefixLen F T)

/-- Model of Node `path.posix.relative` for absolute arguments: both sides
are resolved, and the result walks up from `from` to the common ancestor
and down to `to`. -/
def posixRelative (f t : List Char) : List Char :=
  List.intercalate ['/'] (relSegsList (resolveAbsSegs f) (resolveAbsSegs t))

/-! ### The glob model (fast-glob) -/

/-- Matching of one glob segment against one path segment: `*` matches any
(possibly empty) character sequence within the segment, `?` matches one
character, anything else matches literally.  With fast-glob's `dot: true`
(used by the source) there is no special treatment of leading dots. -/
def segMatch : List Char → List Char → Bool
  | [], t => t.isEmpty
  | p :: ps, t =>
    if p = '*' then t.tails.any (fun suf => segMatch ps suf)
    else
      match t with
      | [] => false
      | c :: cs => (p = '?' || p = c) && segMatch ps cs

/-- Matching of a glob pattern (as segments) against a relative path (as
segments); a `**` segment matches any number (including zero) of path
segments. -/
def globMatch : List (List Char) → List (List Char) → Bool
  | [], t => t.isEmpty
  | p :: ps, t =>
    if p = ['*', '*'] then t.tails.any (fun suf => globMatch ps suf)
    else
      match t with
      | [] => false
      | s :: t' => segMatch p s && globMatch ps t'

/-- Modelled from fast-glob's documented behaviour (the library is an
external dependency, not part of `src/`): with `absolute: true`, a `cwd`
and `dot: true`, `fg(pattern, opts)` returns the absolute paths of the
regular files below `cwd` whose path relative to `cwd` matches `pattern`.
`fsFiles` is the list of all regular files of the modelled filesystem. -/
def fgMatches (fsFiles : List (List Char)) (cwd pattern : List Char) :
    List (List Char) :=
  fsFiles.filter (fun p =>
    (resolveAbsSegs cwd).isPrefixOf (resolveAbsSegs p) &&
      decide ((resolveAbsSegs cwd).length < (resolveAbsSegs p).length) &&
      globMatch (pathSegs pattern)
        ((resolveAbsSegs p).drop (resolveAbsSegs cwd).length))

/-! ### The repository functions (`src/util.ts`, `src/client.ts`, `src/main.ts`) -/

/-- Message of the error thrown by `absoluteRootAndComputedGlob` when the
root is a file and a glob was also given (`src/util.ts`). -/
def conflictingGlobMsg : String :=
  "root \"path\" points to a file, but \"glob\" was also given"

/-- Message standing for the `ENOENT` error thrown by `fs.lstat` when the
resolved root exists neither as a file nor as a directory. -/
def notFoundMsg : String := "ENOENT: no such file or directory"

/-- Model of `absoluteRootAndComputedGlob` (`src/util.ts`): resolve the
root against the workspace `ws` (the source reads `$GITHUB_WORKSPACE`,
which we pass as a parameter and assume absolute); if the result is a
regular file, the parent directory becomes the root and the basename
becomes the glob, and a caller-supplied glob is an error.  The third
component of the result is `false` exactly when the root was a file (the
caller binds it as `rootIsDir`). -/
def absoluteRootAndComputedGlob (fsFiles fsDirs : List (List Char))
    (ws root glob : List Char) :
    Except String ((List Char) × (List Char) × Bool) :=
  let resolvedRoot := posixResolve ws (toPosixChars root)
  if resolvedRoot ∈ fsFiles then
    if glob ≠ [] then .error conflictingGlobMsg
    else
      .ok (posixDirname resolvedRoot,
           toPosixChars (posixBasename resolvedRoot), false)
  else if resolvedRoot ∈ fsDirs then .ok (resolvedRoot, toPosixChars glob, true)
  else .error notFoundMsg

/-- Model of `expandGlob` (`src/util.ts`): run fast-glob with the given
pattern (or the match-all pattern `**/*` when the glob is empty) below
`directoryPath`, convert the matches to paths relative to the directory,
and sort. -/
def expandGlob (fsFiles : List (List Char)) (directoryPath glob : List Char) :
    List (List Char) :=
  sortJS ((fgMatches fsFiles directoryPath
      (toPosixChars (if glob = [] then ('*' :: '*' :: '/' :: '*' :: []) else glob))).map
    (fun f => posixRelative (toPosixChars directoryPath) f))

/-- ClientFileUpload (`src/client.ts`): one unit of upload work. -/
structure ClientFileUpload where
  source : List Char
  destination : List Char
deriving DecidableEq, Repr

/-- ClientComputeDestinationOptions (`src/client.ts`).  The source calls
the fourth field `prefix`, which is reserved in this development, so it is
named `pfx` here. -/
structure ClientComputeDestinationOptions where
  givenRoot : List Char
  absoluteRoot : List Char
  files : List (List Char)
  pfx : List Char
  includeParent : Bool

/-- Destination computed by one iteration of the loop of
`Client.computeDestinations` (`src/client.ts`): join the prefix, the
basename of the given root (only with `includeParent`), and the file
name. -/
def computeDestination (givenRoot pfx : List Char) (includeParent : Bool)
    (name : List Char) : List Char :=
  let base := if includeParent then posixBasename (toPosixChars givenRoot) else []
  posixJoin [pfx, base, name]

/-- Model of `Client.computeDestinations` (`src/client.ts`). -/
def computeDestinations (opts : ClientComputeDestinationOptions) :
    List ClientFileUpload :=
  opts.files.map (fun name =>
    { source := posixResolve opts.absoluteRoot (toPosixChars name),
      destination := computeDestination opts.givenRoot opts.pfx opts.includeParent name })

/-- Composition of root resolution and glob expansion as performed by
`run` (`src/main.ts`, the single-path case) and by the single-path branch
of `processMultiplePaths`. -/
def singlePathExpand (fsFiles fsDirs : List (List Char)) (ws root glob : List Char) :
    Except String (List (List Char)) := do
  let (absoluteRoot, computedGlob, _) ←
    absoluteRootAndComputedGlob fsFiles fsDirs ws root glob
  pure (expandGlob fsFiles absoluteRoot computedGlob)

/-- Model of the destination-computing fragment of `run` (`src/main.ts`):
resolve the root, expand the glob, and compute destinations with
`includeParent && rootIsDir` — the parent directory name is only applied
when the given root was genuinely a directory.  (The optional
`.gcloudignore` filtering step between expansion and destination
computation is modelled separately as `processIgnores`.) -/
def runComputeDestinations (fsFiles fsDirs : List (List Char))
    (ws root glob pfx : List Char) (includeParent : Bool) :
    Except String (List ClientFileUpload) := do
  let (absoluteRoot, computedGlob, rootIsDir) ←
    absoluteRootAndComputedGlob fsFiles fsDirs ws root glob
  let files := expandGlob fsFiles absoluteRoot computedGlob
  pure (computeDestinations
    { givenRoot := root, absoluteRoot := absoluteRoot, files := files,
      pfx := pfx, includeParent := includeParent && rootIsDir })

/-- Model of the `.gcloudignore` filtering loop of `run` (`src/main.ts`,
the `for` loop with `splice`): a file is removed when the predicate
returns `true`; when the predicate throws, the error is logged and the
loop continues with the file still in the list; order is otherwise
preserved. -/
def processIgnores (ign : List Char → Except String Bool) :
    List (List Char) → List (List Char)
  | [] => []
  | f :: rest =>
    match ign f with
    | .ok true => processIgnores ign rest
    | _ => f :: processIgnores ign rest

/-- Result record of `processMultiplePaths` (`src/util.ts`). -/
structure ProcessedPaths where
  files : List (List Char)
  absoluteRoot : List Char
  givenRoot : List Char
  rootIsDir : Bool
deriving DecidableEq, Repr

/-- Model of the accumulation loop of the multiple-path branch of
`processMultiplePaths` (`src/util.ts`): expand each root independently
against the same glob and re-express every found file relative to the
workspace root. -/
def collectMultiFiles (fsFiles fsDirs : List (List Char)) (ws glob : List Char) :
    List (List Char) → Except String (List (List Char))
  | [] => .ok []
  | p :: rest => do
    let (pathAbsoluteRoot, computedGlob, _) ←
      absoluteRootAndComputedGlob fsFiles fsDirs ws p glob
    let pathFiles := expandGlob fsFiles pathAbsoluteRoot computedGlob
    let relFiles := pathFiles.map (fun f =>
      posixRelative ws (posixJoin [pathAbsoluteRoot, f]))
    let restFiles ← collectMultiFiles fsFiles fsDirs ws glob rest
    pure (relFiles ++ restFiles)

/-- Model of `processMultiplePaths` (`src/util.ts`): split the path input
on newlines, trim, and drop empty lines; with exactly one path use the
single-root logic, otherwise expand every root, re-express the files
relative to the workspace, concatenate in root order and de-duplicate
keeping first occurrences (`[...new Set(allFiles)]`). -/
def processMultiplePaths (fsFiles fsDirs : List (List Char))
    (ws pathInput glob : List Char) : Except String ProcessedPaths :=
  match ((splitOnChar '\n' pathInput).map trimChars).filter (· ≠ []) with
  | [single] => do
    let (absoluteRoot, computedGlob, rootIsDir) ←
      absoluteRootAndComputedGlob fsFiles fsDirs ws single glob
    pure { files := expandGlob fsFiles absoluteRoot computedGlob,
           absoluteRoot := absoluteRoot, givenRoot := single,
           rootIsDir := rootIsDir }
  | ps => do
    let allFiles ← collectMultiFiles fsFiles fsDirs ws glob ps
    pure { files := dedupFirstSeen allFiles, absoluteRoot := ws,
           givenRoot := ws, rootIsDir := true }

/-! ### The bounded-concurrency executor (`inParallel`, `src/upload-helper.ts`,
and `WorkerPool.process`, `src/workerPool.ts`)

A task is represented by its settlement: `Except.ok v` for a task whose
promise fulfils with `v`, `Except.error e` for a task whose promise
rejects with an error rendered (by `errorMessage` in `inParallel`, by
string interpolation in `WorkerPool`) as the message `e`. -/

/-- Message of the error thrown by `inParallel` when the computed
concurrency is below 1. -/
def concurrencyErrMsg : String := "concurrency must be at least 1"

/-- Model of `concurrency = Math.min(concurrency || oscpus().length - 1)`
in `inParallel` (`src/upload-helper.ts`).  `Math.min` applied to a single
argument returns that argument, so no minimum with the task count is
taken: the effective concurrency is the requested value when it is a
non-zero number, and `ncpus - 1` when the request is `0` or absent. -/
def effectiveConcurrency (requested : Option Int) (ncpus : Int) : Int :=
  match requested with
  | none => ncpus - 1
  | some c => if c = 0 then ncpus - 1 else c

/-- Per-index success slots of the `results` array of `inParallel` after
all tasks have settled: position `i` holds `some v` exactly when task `i`
fulfilled with `v`. -/
def settleResults (tasks : List (Except String α)) : List (Option α) :=
  tasks.map (fun t => match t with | .ok v => some v | .error _ => none)

/-- Per-index failure slots of the `errors` array of `inParallel` after
all tasks have settled: position `i` holds `some e` exactly when task `i`
rejected with message `e`. -/
def settleErrors (tasks : List (Except String α)) : List (Option String) :=
  tasks.map (fun t => match t with | .ok _ => none | .error e => some e)

/-- Trailing unset slots removed: a JavaScript array assigned only at some
indices has length `last set index + 1`, so the sparse `errors` array of
`inParallel` is the settled error slots truncated after the last failure;
the remaining unset slots read as holes, which `join` renders as empty
strings. -/
def rtrimNone (l : List (Option α)) : List (Option α) :=
  (l.reverse.dropWhile (fun o => o.isNone)).reverse

/-- Model of `inParallel` (`src/upload-helper.ts`): check the computed
concurrency, let every task settle (each worker records the result or the
`errorMessage` of its task under the task's original index, and a failure
never stops the shared iterator), then either throw the accumulated
messages joined with newlines or return the results in index order. -/
def inParallel (tasks : List (Except String α)) (requested : Option Int)
    (ncpus : Int) : Except String (List α) :=
  if effectiveConcurrency requested ncpus < 1 then .error concurrencyErrMsg
  else if (rtrimNone (settleErrors tasks)).length > 0 then
    .error (String.intercalate "\n"
      ((rtrimNone (settleErrors tasks)).map (fun o => o.getD "")))
  else .ok ((settleResults tasks).filterMap id)

/-- One write of a worker of `inParallel`: when the task at `idx` settles,
its value (or message) is stored at index `idx` of the corresponding
array; indices outside the task list write nothing. -/
def writeOutcome (tasks : List (Except String α))
    (st : List (Option α) × List (Option String)) (idx : Nat) :
    List (Option α) × List (Option String) :=
  match tasks[idx]? with
  | some (.ok v) => (st.1.set idx (some v), st.2)
  | some (.error e) => (st.1, st.2.set idx (some e))
  | none => st

/-- Contents of the `results` and `errors` arrays of `inParallel` after
the workers have settled the tasks in the completion order `order` (any
interleaving of the workers produces some such order). -/
def recordOutcomes (tasks : List (Except String α)) (order : List Nat) :
    List (Option α) × List (Option String) :=
  order.foldl (writeOutcome tasks)
    (List.replicate tasks.length none, List.replicate tasks.length none)

/-- Rejection messages extracted from a settlement sequence, in
settlement order (the `errors` array of `WorkerPool.process`). -/
def settledErrorList (settled : List (Except String α)) : List String :=
  settled.filterMap (fun t => match t with | .error e => some e | .ok _ => none)

/-- Aggregate error message thrown by `WorkerPool.process`
(`src/workerPool.ts`): every rejection message on its own `- `-prefixed
line, under a count header. -/
def workerPoolErrMsg (errors : List String) : String :=
  toString errors.length ++ " error(s) occured:\n" ++
    String.intercalate "\n" (errors.map (fun e => "- " ++ e))

/-- Model of `WorkerPool.process` (`src/workerPool.ts`): the queued tasks
settle in some completion order; fulfilled values are pushed onto
`results` and rejection messages onto `errors` in that order; after all
tasks have settled, either an aggregate error carrying every message is
thrown or the results are returned. -/
def workerPoolProcess (tasks : List (Except String α)) (order : List Nat) :
    Except String (List α) :=
  if (settledErrorList (order.filterMap (fun i => tasks[i]?))).length > 0 then
    .error (workerPoolErrMsg (settledErrorList (order.filterMap (fun i => tasks[i]?))))
  else .ok ((order.filterMap (fun i => tasks[i]?)).filterMap (fun t => t.toOption))

/-- Well-formedness of one path segment of a normalized absolute path:
non-empty, slash-free, and neither `.` nor `..`. -/
def goodSeg (s : List Char) : Bool :=
  s ≠ [] ∧ '/' ∉ s ∧ s ≠ ['.'] ∧ s ≠ ['.', '.']

/-- Normalized absolute path: the path is exactly the slash-joined form of
its own segments, and every segment is well-formed.  This is the shape of
the file paths produced by `path.resolve` and returned by fast-glob with
`absolute: true`. -/
def isNormAbs (p : List Char) : Bool :=
  p = absOf (pathSegs p) ∧ (pathSegs p).all goodSeg

/-- Contribution of one root of the multiple-path branch of
`processMultiplePaths`: the glob expansion of that root, re-expressed
relative to the workspace (empty when root resolution fails, in which case
the whole run fails anyway). -/
def pathRelFiles (fsFiles fsDirs : List (List Char)) (ws glob p : List Char) :
    List (List Char) :=
  match absoluteRootAndComputedGlob fsFiles fsDirs ws p glob with
  | .ok (ar, cg, _) =>
    (expandGlob fsFiles ar cg).map (fun f => posixRelative ws (posixJoin [ar, f]))
  | .error _ => []

/-! ### Executor lemmas -/

/-- The two arrays keep their length under one worker write. -/
theorem writeOutcome_length (tasks : List (Except String α))
    (st : List (Option α) × List (Option String)) (idx : Nat) :
    (writeOutcome tasks st idx).1.length = st.1.length ∧
      (writeOutcome tasks st idx).2.length = st.2.length := by
  unfold writeOutcome
  cases h : tasks[idx]? with
  | none => exact ⟨rfl, rfl⟩
  | some t => cases t <;> simp

/-- The two arrays keep their length under any sequence of writes. -/
theorem foldl_writeOutcome_length (tasks : List (Except String α))
    (order : List Nat) :
    ∀ st : List (Option α) × List (Option String),
      (order.foldl (writeOutcome tasks) st).1.length = st.1.length ∧
        (order.foldl (writeOutcome tasks) st).2.length = st.2.length := by
  induction order with
  | nil => intro st; exact ⟨rfl, rfl⟩
  | cons idx rest ih =>
    intro st
    have h := writeOutcome_length tasks st idx
    have h2 := ih (writeOutcome tasks st idx)
    simp only [List.foldl_cons]
    exact ⟨h2.1.trans h.1, h2.2.trans h.2⟩

/-- A slot of the results array holding the settled value of its own task
is never changed by further writes. -/
theorem foldl_writeOutcome_stable_ok (tasks : List (Except String α))
    (order : List Nat) :
    ∀ (st : List (Option α) × List (Option String)) (j : Nat) (v : α),
      tasks[j]? = some (Except.ok v) → st.1[j]? = some (some v) →
      (order.foldl (writeOutcome tasks) st).1[j]? = some (some v) := by
  induction order with
  | nil => intro st j v _ hst; exact hst
  | cons idx rest ih =>
    intro st j v hj hst
    simp only [List.foldl_cons]
    refine ih _ j v hj ?_
    unfold writeOutcome
    cases h : tasks[idx]? with
    | none => exact hst
    | some t =>
      cases t with
      | ok w =>
        simp only [List.getElem?_set]
        by_cases hij : idx = j
        · subst hij
          rw [hj] at h
          cases h
          have hlt : idx < st.1.length := by
            by_contra hge
            rw [List.getElem?_eq_none (Nat.le_of_not_lt hge)] at hst
            exact Option.noConfusion hst
          simp [hlt]
        · simp [hij, hst]
      | error e => exact hst

/-- A slot of the errors array holding the settled message of its own task
is never changed by further writes. -/
theorem foldl_writeOutcome_stable_err (tasks : List (Except String α))
    (order : List Nat) :
    ∀ (st : List (Option α) × List (Option String)) (j : Nat) (e : String),
      tasks[j]? = some (Except.error e) → st.2[j]? = some (some e) →
      (order.foldl (writeOutcome tasks) st).2[j]? = some (some e) := by
  induction order with
  | nil => intro st j e _ hst; exact hst
  | cons idx rest ih =>
    intro st j e hj hst
    simp only [List.foldl_cons]
    refine ih _ j e hj ?_
    unfold writeOutcome
    cases h : tasks[idx]? with
    | none => exact hst
    | some t =>
      cases t with
      | ok w => exact hst
      | error e2 =>
        simp only [List.getElem?_set]
        by_cases hij : idx = j
        · subst hij
          rw [hj] at h
          cases h
          have hlt : idx < st.2.length := by
            by_contra hge
            rw [List.getElem?_eq_none (Nat.le_of_not_lt hge)] at hst
            exact Option.noConfusion hst
          simp [hlt]
        · simp [hij, hst]

/-- Once the task at `j` fulfils and `j` is among the settled indices, the
results array holds its value at index `j`. -/
theorem foldl_writeOutcome_ok (tasks : List (Except String α))
    (order : List Nat) :
    ∀ (st : List (Option α) × List (Option String)) (j : Nat) (v : α),
      st.1.length = tasks.length →
      tasks[j]? = some (Except.ok v) → j ∈ order →
      (order.foldl (writeOutcome tasks) st).1[j]? = some (some v) := by
  induction order with
  | nil => intro st j v _ _ hmem; cases hmem
  | cons idx rest ih =>
    intro st j v hlen hj hmem
    simp only [List.foldl_cons]
    by_cases hij : idx = j
    · subst hij
      refine foldl_writeOutcome_stable_ok tasks rest _ idx v hj ?_
      unfold writeOutcome
      rw [hj]
      simp only [List.getElem?_set, if_pos rfl]
      have hlt : idx < tasks.length := by
        by_contra hge
        rw [List.getElem?_eq_none (Nat.le_of_not_lt hge)] at hj
        exact Option.noConfusion hj
      rw [hlen]
      simp [hlt]
    · have hmem2 : j ∈ rest := by
        cases List.mem_cons.mp hmem with
        | inl h => exact absurd h.symm hij
        | inr h => exact h
      exact ih _ j v ((writeOutcome_length tasks st idx).1.trans hlen) hj hmem2

/-- Once the task at `j` rejects and `j` is among the settled indices, the
errors array holds its message at index `j`. -/
theorem foldl_writeOutcome_err (tasks : List (Except String α))
    (order : List Nat) :
    ∀ (st : List (Option α) × List (Option String)) (j : Nat) (e : String),
      st.2.length = tasks.length →
      tasks[j]? = some (Except.error e) → j ∈ order →
      (order.foldl (writeOutcome tasks) st).2[j]? = some (some e) := by
  induction order with
  | nil => intro st j e _ _ hmem; cases hmem
  | cons idx rest ih =>
    intro st j e hlen hj hmem
    simp only [List.foldl_cons]
    by_cases hij : idx = j
    · subst hij
      refine foldl_writeOutcome_stable_err tasks rest _ idx e hj ?_
      unfold writeOutcome
      rw [hj]
      simp only [List.getElem?_set, if_pos rfl]
      have hlt : idx < tasks.length := by
        by_contra hge
        rw [List.getElem?_eq_none (Nat.le_of_not_lt hge)] at hj
        exact Option.noConfusion hj
      rw [hlen]
      simp [hlt]
    · have hmem2 : j ∈ rest := by
        cases List.mem_cons.mp hmem with
        | inl h => exact absurd h.symm hij
        | inr h => exact h
      exact ih _ j e ((writeOutcome_length tasks st idx).2.trans hlen) hj hmem2

/-- The results array is only written by fulfilled tasks: if the task at
`j` rejected (or does not exist), the slot keeps its initial value. -/
theorem foldl_writeOutcome_fst_untouched (tasks : List (Except String α))
    (order : List Nat) :
    ∀ (st : List (Option α) × List (Option String)) (j : Nat),
      (∀ v : α, tasks[j]? ≠ some (Except.ok v)) →
      (order.foldl (writeOutcome tasks) st).1[j]? = st.1[j]? := by
  induction order with
  | nil => intro st j _; rfl
  | cons idx rest ih =>
    intro st j hj
    simp only [List.foldl_cons]
    rw [ih _ j hj]
    unfold writeOutcome
    cases h : tasks[idx]? with
    | none => rfl
    | some t =>
      cases t with
      | ok w =>
        simp only [List.getElem?_set]
        by_cases hij : idx = j
        · subst hij; exact absurd h (hj w)
        · simp [hij]
      | error e => rfl

/-- The errors array is only written by rejected tasks: if the task at `j`
fulfilled (or does not exist), the slot keeps its initial value. -/
theorem foldl_writeOutcome_snd_untouched (tasks : List (Except String α))
    (order : List Nat) :
    ∀ (st : List (Option α) × List (Option String)) (j : Nat),
      (∀ e : String, tasks[j]? ≠ some (Except.error e)) →
      (order.foldl (writeOutcome tasks) st).2[j]? = st.2[j]? := by
  induction order with
  | nil => intro st j _; rfl
  | cons idx rest ih =>
    intro st j hj
    simp only [List.foldl_cons]
    rw [ih _ j hj]
    unfold writeOutcome
    cases h : tasks[idx]? with
    | none => rfl
    | some t =>
      cases t with
      | ok w => rfl
      | error e =>
        simp only [List.getElem?_set]
        by_cases hij : idx = j
        · subst hij; exact absurd h (hj e)
        · simp [hij]

/-- Independence of the completion order: as soon as every task index is
settled at least once, the final arrays are the settled slots in original
task order. -/
theorem recordOutcomes_eq_settle (tasks : List (Except String α))
    (order : List Nat) (hcov : ∀ j, j < tasks.length → j ∈ order) :
    recordOutcomes tasks order = (settleResults tasks, settleErrors tasks) := by
  have hlen := foldl_writeOutcome_length tasks order
    (List.replicate tasks.length (none : Option α),
     List.replicate tasks.length (none : Option String))
  unfold recordOutcomes
  refine Prod.ext ?_ ?_
  · refine List.ext_getElem? (fun j => ?_)
    by_cases hj : j < tasks.length
    · cases ht : tasks[j]? with
      | none =>
        exact absurd (List.getElem?_eq_getElem hj) (by rw [ht]; exact fun h => Option.noConfusion h)
      | some t =>
        cases t with
        | ok v =>
          rw [foldl_writeOutcome_ok tasks order _ j v (by simp) ht (hcov j hj)]
          unfold settleResults
          rw [List.getElem?_map, ht]
          rfl
        | error e =>
          rw [foldl_writeOutcome_fst_untouched tasks order _ j
            (fun v h => by rw [ht] at h; cases h)]
          unfold settleResults
          rw [List.getElem?_map, ht]
          simp [hj]
    · have h1 : tasks.length ≤ j := Nat.le_of_not_lt hj
      have e1 : (List.foldl (writeOutcome tasks)
          (List.replicate tasks.length (none : Option α),
           List.replicate tasks.length (none : Option String)) order).1.length =
          tasks.length := by simpa using hlen.1
      rw [List.getElem?_eq_none (by rw [e1]; exact h1),
          List.getElem?_eq_none (by simpa [settleResults] using h1)]
  · refine List.ext_getElem? (fun j => ?_)
    by_cases hj : j < tasks.length
    · cases ht : tasks[j]? with
      | none =>
        exact absurd (List.getElem?_eq_getElem hj) (by rw [ht]; exact fun h => Option.noConfusion h)
      | some t =>
        cases t with
        | ok v =>
          rw [foldl_writeOutcome_snd_untouched tasks order _ j
            (fun e h => by rw [ht] at h; cases h)]
          unfold settleErrors
          rw [List.getElem?_map, ht]
          simp [hj]
        | error e =>
          rw [foldl_writeOutcome_err tasks order _ j e (by simp) ht (hcov j hj)]
          unfold settleErrors
          rw [List.getElem?_map, ht]
          rfl
    · have h1 : tasks.length ≤ j := Nat.le_of_not_lt hj
      have e2 : (List.foldl (writeOutcome tasks)
          (List.replicate tasks.length (none : Option α),
           List.replicate tasks.length (none : Option String)) order).2.length =
          tasks.length := by simpa using hlen.2
      rw [List.getElem?_eq_none (by rw [e2]; exact h1),
          List.getElem?_eq_none (by simpa [settleErrors] using h1)]

/-- A list decomposes as its trailing-`none`-trimmed part followed by the
trimmed `none` suffix. -/
theorem rtrimNone_append (l : List (Option α)) :
    l = rtrimNone l ++ (l.reverse.takeWhile (fun o => o.isNone)).reverse := by
  unfold rtrimNone
  conv_lhs =>
    rw [← List.reverse_reverse l,
      ← List.takeWhile_append_dropWhile (p := fun o => o.isNone) (l := l.reverse)]
  rw [List.reverse_append]

/-- The trimmed array is empty exactly when no slot was ever written. -/
theorem rtrimNone_eq_nil_iff (l : List (Option α)) :
    rtrimNone l = [] ↔ ∀ x ∈ l, x.isNone := by
  unfold rtrimNone
  rw [List.reverse_eq_nil_iff, List.dropWhile_eq_nil_iff]
  constructor
  · intro h x hx
    exact h x (List.mem_reverse.mpr hx)
  · intro h x hx
    exact h x (List.mem_reverse.mp hx)

/-- A written slot survives the trimming of the trailing holes. -/
theorem mem_rtrimNone (l : List (Option α)) (x : Option α) (hx : x ∈ l)
    (hsome : x.isNone = false) : x ∈ rtrimNone l := by
  have hdecomp := rtrimNone_append l
  rw [hdecomp] at hx
  cases List.mem_append.mp hx with
  | inl h => exact h
  | inr h =>
    have := List.mem_takeWhile_imp (List.mem_reverse.mp h)
    rw [hsome] at this
    exact Bool.noConfusion this

/-- Reading every index of a list in order through `getElem?` recovers the
list. -/
theorem filterMap_getElem_range (l : List β) :
    (List.range l.length).filterMap (fun i => l[i]?) = l := by
  induction l with
  | nil => rfl
  | cons x xs ih =>
    rw [List.length_cons, List.range_succ_eq_map, List.filterMap_cons]
    simp only [List.getElem?_cons_zero, List.filterMap_map]
    have hc : ((fun i => (x :: xs)[i]?) ∘ (· + 1)) = (fun i => xs[i]?) := by
      funext i
      simp
    rw [hc, ih]

/-- With an admissible concurrency and at least one rejected task,
`inParallel` fails after all tasks settle, with the newline-joined sparse
errors array as message. -/
theorem inParallel_error_case (tasks : List (Except String α))
    (requested : Option Int) (ncpus : Int)
    (hconc : 1 ≤ effectiveConcurrency requested ncpus)
    (j : Nat) (e : String) (hj : tasks[j]? = some (Except.error e)) :
    inParallel tasks requested ncpus =
      .error (String.intercalate "\n"
        ((rtrimNone (settleErrors tasks)).map (fun o => o.getD ""))) := by
  have hmem : (some e : Option String) ∈ settleErrors tasks := by
    have h : (settleErrors tasks)[j]? = some (some e) := by
      unfold settleErrors
      rw [List.getElem?_map, hj]
      rfl
    exact List.getElem?_mem h
  have hne : rtrimNone (settleErrors tasks) ≠ [] := by
    intro hnil
    exact Bool.noConfusion ((rtrimNone_eq_nil_iff _).mp hnil _ hmem)
  unfold inParallel
  rw [if_neg (not_lt.mpr hconc), if_pos (List.length_pos.mpr hne)]

/-- With an admissible concurrency and no rejected task, `inParallel`
returns the fulfilled values in original task order. -/
theorem inParallel_ok_case (tasks : List (Except String α))
    (requested : Option Int) (ncpus : Int)
    (hconc : 1 ≤ effectiveConcurrency requested ncpus)
    (hok : ∀ (j : Nat) (e : String), tasks[j]? ≠ some (Except.error e)) :
    inParallel tasks requested ncpus =
      .ok ((settleResults tasks).filterMap id) := by
  have hall : ∀ x ∈ settleErrors tasks, x.isNone = true := by
    intro x hx
    rcases List.mem_map.mp hx with ⟨t, ht, rfl⟩
    cases t with
    | ok v => rfl
    | error e =>
      rcases List.getElem?_of_mem ht with ⟨j, hjt⟩
      exact absurd hjt (hok j e)
  have hnil : rtrimNone (settleErrors tasks) = [] :=
    (rtrimNone_eq_nil_iff _).mpr hall
  unfold inParallel
  rw [if_neg (not_lt.mpr hconc), hnil]
  rfl

/-- In a completion order covering all indices exactly once, the settled
sequence of `WorkerPool.process` is a permutation of the queued tasks. -/
theorem workerPool_settled_perm (tasks : List (Except String α))
    (order : List Nat) (hperm : order.Perm (List.range tasks.length)) :
    (order.filterMap (fun i => tasks[i]?)).Perm tasks := by
  have h := hperm.filterMap (fun i => tasks[i]?)
  rw [filterMap_getElem_range] at h
  exact h

/-! ### Claims about the executor -/

/-- C1: every upload task handed to the bounded-concurrency executor runs
to settlement even when other tasks fail — each worker records its task's
value or failure message under the task's original index, regardless of
completion order and unaffected by other tasks' failures; if at least one
task failed, `inParallel` fails only after all tasks have settled, with an
aggregate error whose message joins a list of lines containing every
per-task failure message; if no task failed it returns the per-task
results.  The legacy `WorkerPool.process` executor obeys the same
settle-all-then-aggregate discipline. -/
theorem c1_executor_settles_all_and_aggregates
    (tasks : List (Except String α)) (requested : Option Int) (ncpus : Int)
    (order : List Nat)
    (hconc : 1 ≤ effectiveConcurrency requested ncpus)
    (hcov : ∀ j, j < tasks.length → j ∈ order) :
    (∀ (j : Nat) (v : α), tasks[j]? = some (Except.ok v) →
      ((recordOutcomes tasks order).1)[j]? = some (some v)) ∧
    (∀ (j : Nat) (e : String), tasks[j]? = some (Except.error e) →
      ((recordOutcomes tasks order).2)[j]? = some (some e)) ∧
    ((∃ (j : Nat) (e : String), tasks[j]? = some (Except.error e)) →
      ∃ L : List String, inParallel tasks requested ncpus =
          .error (String.intercalate "\n" L) ∧
        ∀ (j : Nat) (e : String), tasks[j]? = some (Except.error e) → e ∈ L) ∧
    ((∀ (j : Nat) (e : String), tasks[j]? ≠ some (Except.error e)) →
      inParallel tasks requested ncpus =
        .ok ((settleResults tasks).filterMap id)) ∧
    (∀ order2 : List Nat, order2.Perm (List.range tasks.length) →
      (order2.filterMap (fun i => tasks[i]?)).Perm tasks ∧
      ((∃ (j : Nat) (e : String), tasks[j]? = some (Except.error e)) →
        ∃ L : List String, workerPoolProcess tasks order2 =
            .error (workerPoolErrMsg L) ∧
          ∀ (j : Nat) (e : String), tasks[j]? = some (Except.error e) → e ∈ L) ∧
      ((∀ (j : Nat) (e : String), tasks[j]? ≠ some (Except.error e)) →
        ∃ res : List α, workerPoolProcess tasks order2 = .ok res ∧
          res.Perm (tasks.filterMap (fun t => t.toOption)))) := by
  have hrec := recordOutcomes_eq_settle tasks order hcov
  refine ⟨?_, ?_, ?_, ?_, ?_⟩
  · intro j v hj
    rw [hrec]
    unfold settleResults
    rw [List.getElem?_map, hj]
    rfl
  · intro j e hj
    rw [hrec]
    unfold settleErrors
    rw [List.getElem?_map, hj]
    rfl
  · rintro ⟨j, e, hj⟩
    refine ⟨(rtrimNone (settleErrors tasks)).map (fun o => o.getD ""), ?_, ?_⟩
    · exact inParallel_error_case tasks requested ncpus hconc j e hj
    · intro j2 e2 hj2
      have hmem : (some e2 : Option String) ∈ settleErrors tasks := by
        have h : (settleErrors tasks)[j2]? = some (some e2) := by
          unfold settleErrors
          rw [List.getElem?_map, hj2]
          rfl
        exact List.getElem?_mem h
      exact List.mem_map.mpr ⟨some e2, mem_rtrimNone _ _ hmem rfl, rfl⟩
  · exact fun hok => inParallel_ok_case tasks requested ncpus hconc hok
  · intro order2 hperm
    have hsettled := workerPool_settled_perm tasks order2 hperm
    refine ⟨hsettled, ?_, ?_⟩
    · rintro ⟨j, e, hj⟩
      refine ⟨settledErrorList (order2.filterMap (fun i => tasks[i]?)), ?_, ?_⟩
      · have hne : settledErrorList (order2.filterMap (fun i => tasks[i]?)) ≠ [] := by
          intro hnil
          have he : e ∈ settledErrorList (order2.filterMap (fun i => tasks[i]?)) := by
            unfold settledErrorList
            exact List.mem_filterMap.mpr
              ⟨Except.error e, hsettled.mem_iff.mpr (List.getElem?_mem hj), rfl⟩
          rw [hnil] at he
          cases he
        unfold workerPoolProcess
        rw [if_pos (List.length_pos.mpr hne)]
      · intro j2 e2 hj2
        unfold settledErrorList
        exact List.mem_filterMap.mpr
          ⟨Except.error e2, hsettled.mem_iff.mpr (List.getElem?_mem hj2), rfl⟩
    · intro hok
      have hnil : settledErrorList (order2.filterMap (fun i => tasks[i]?)) = [] := by
        unfold settledErrorList
        rw [List.filterMap_eq_nil_iff]
        intro t ht
        cases t with
        | ok v => rfl
        | error e =>
          rcases List.getElem?_of_mem (hsettled.mem_iff.mp ht) with ⟨j, hjt⟩
          exact absurd hjt (hok j e)
      refine ⟨(order2.filterMap (fun i => tasks[i]?)).filterMap (fun t => t.toOption), ?_, ?_⟩
      · unfold workerPoolProcess
        rw [hnil]
        rfl
      · exact hsettled.filterMap (fun t => t.toOption)

/-- Witness for C1 at a concrete task list: with tasks
`[ok 1, error "x"]` settled in completion order `[1, 0]`, the fulfilled
value is recorded at index 0 and the failure message at index 1. -/
theorem c1_witness :
    ((recordOutcomes [Except.ok (1 : Nat), Except.error "x"] [1, 0]).1)[0]? =
      some (some 1) ∧
    ((recordOutcomes [Except.ok (1 : Nat), Except.error "x"] [1, 0]).2)[1]? =
      some (some "x") := by
  have h := c1_executor_settles_all_and_aggregates
    [Except.ok (1 : Nat), Except.error "x"] (some 2) 4 [1, 0]
    (by decide) (by decide)
  exact ⟨h.1 0 1 rfl, h.2.1 1 "x" rfl⟩

/-- C2 counterexample: the executor does not clamp the concurrency to
`max(1, min(requested, number_of_tasks))` and does not reject a request of
`0`.  With one task and a request of `3` the effective concurrency is `3`,
not `max 1 (min 3 1) = 1`; and a request of `0` on a machine with `8` CPUs
is silently replaced by `7` and the run succeeds rather than failing with
the configuration error. -/
theorem c2_counterexample :
    inParallel [Except.ok (1 : Nat)] (some 0) 8 = .ok [1] ∧
    effectiveConcurrency (some 3) 8 = 3 ∧
    effectiveConcurrency (some 3) 8 ≠
      max 1 (min 3 (([Except.ok (1 : Nat)] : List (Except String Nat)).length : Int)) := by
  refine ⟨rfl, by decide, by decide⟩

/-- C2 (amended): the effective concurrency is the requested value when it
is a non-zero number and `ncpus - 1` when the request is `0` or absent —
the task count plays no role; when the effective value is below 1 the
executor rejects with the configuration error `concurrency must be at
least 1` before any task outcome is consulted (so a request of `0` is
rejected only on a machine where `ncpus - 1 < 1`). -/
theorem c2_effective_concurrency_amended (tasks : List (Except String α))
    (requested : Option Int) (ncpus : Int) :
    (effectiveConcurrency requested ncpus < 1 →
      inParallel tasks requested ncpus = .error concurrencyErrMsg) ∧
    (∀ c : Int, c ≠ 0 → effectiveConcurrency (some c) ncpus = c) ∧
    effectiveConcurrency (some 0) ncpus = ncpus - 1 ∧
    effectiveConcurrency none ncpus = ncpus - 1 := by
  refine ⟨fun h => ?_, fun c hc => ?_, ?_, rfl⟩
  · unfold inParallel
    rw [if_pos h]
  · show (if c = 0 then ncpus - 1 else c) = c
    rw [if_neg hc]
  · show (if (0 : Int) = 0 then ncpus - 1 else 0) = ncpus - 1
    rw [if_pos rfl]

/-- Witness for the amended C2: on a single-CPU machine a request of `0`
computes effective concurrency `0` and the executor fails with the
configuration error even though its only task would have failed with a
different message. -/
theorem c2_witness :
    inParallel ([Except.error "boom"] : List (Except String Nat)) (some 0) 1 =
      .error concurrencyErrMsg :=
  (c2_effective_concurrency_amended [Except.error "boom"] (some 0) 1).1 (by decide)

/-- A list of fulfilled tasks settles to its list of values. -/
theorem settleResults_map_ok (vals : List α) :
    (settleResults (vals.map Except.ok)).filterMap id = vals := by
  induction vals with
  | nil => rfl
  | cons v vs ih =>
    show v :: (settleResults (vs.map Except.ok)).filterMap id = v :: vs
    rw [ih]

/-- C10: with any completion order that settles every task index, the
`results` and `errors` arrays of `inParallel` end up holding each task's
outcome at the task's original index (completion order is irrelevant), and
when every task fulfils, `inParallel` returns the values in input order. -/
theorem c10_results_in_input_order (tasks : List (Except String α))
    (order : List Nat) (hcov : ∀ j, j < tasks.length → j ∈ order) :
    recordOutcomes tasks order = (settleResults tasks, settleErrors tasks) ∧
    (∀ vals : List α, tasks = vals.map Except.ok →
      ∀ (requested : Option Int) (ncpus : Int),
        1 ≤ effectiveConcurrency requested ncpus →
        inParallel tasks requested ncpus = .ok vals) := by
  refine ⟨recordOutcomes_eq_settle tasks order hcov, ?_⟩
  intro vals hvals requested ncpus hconc
  have hok : ∀ (j : Nat) (e : String), tasks[j]? ≠ some (Except.error e) := by
    intro j e h
    subst hvals
    rw [List.getElem?_map] at h
    cases hv : vals[j]? with
    | none => rw [hv] at h; cases h
    | some v => rw [hv] at h; simp at h
  rw [inParallel_ok_case tasks requested ncpus hconc hok]
  subst hvals
  congr 1
  exact settleResults_map_ok vals

/-- Witness for C10: two fulfilled tasks settled in reversed completion
order still produce results in input order. -/
theorem c10_witness :
    recordOutcomes [Except.ok (10 : Nat), Except.ok 20] [1, 0] =
      (settleResults [Except.ok (10 : Nat), Except.ok 20],
       settleErrors [Except.ok (10 : Nat), Except.ok 20]) ∧
    inParallel [Except.ok (10 : Nat), Except.ok 20] none 8 = .ok [10, 20] := by
  have h := c10_results_in_input_order [Except.ok (10 : Nat), Except.ok 20]
    [1, 0] (by decide)
  exact ⟨h.1, h.2 [10, 20] rfl none 8 (by decide)⟩

/-! ### Claims about destination computation and ignore filtering -/

/-- Joining the empty prefix, the empty parent segment and a file name is
exactly posix normalization of the file name. -/
theorem posixJoin_empty_empty (f : List Char) :
    posixJoin [[], [], f] = posixNormalize f := by
  unfold posixJoin
  by_cases hf : f = []
  · subst hf
    rfl
  · have hfilter : ([[], [], f] : List (List Char)).filter (· ≠ []) = [f] := by
      simp [hf]
    rw [hfilter]
    have hne : ([f] : List (List Char)) ≠ [] := by simp
    rw [if_neg hne]
    have hinter : List.intercalate ['/'] [f] = f := by
      simp [List.intercalate]
    rw [hinter]

/-- C7: destination computation is pure (identical inputs yield identical
outputs); with the empty prefix and `includeParent = false` it returns the
posix-normalization of the relative file (hence the file unchanged when it
is already normalized); with `givenRoot = "foo/bar"`, file `"file1"` and
`includeParent = true` it yields `"bar/file1"`, and with prefix `"p"` in
addition it yields `"p/bar/file1"`. -/
theorem c7_computeDestination_pure_and_examples :
    (∀ o1 o2 : ClientComputeDestinationOptions, o1 = o2 →
      computeDestinations o1 = computeDestinations o2) ∧
    (∀ givenRoot f : List Char,
      computeDestination givenRoot [] false f = posixNormalize f) ∧
    (∀ givenRoot f : List Char, posixNormalize f = f →
      computeDestination givenRoot [] false f = f) ∧
    computeDestination "foo/bar".toList [] true "file1".toList =
      "bar/file1".toList ∧
    computeDestination "foo/bar".toList "p".toList true "file1".toList =
      "p/bar/file1".toList := by
  refine ⟨fun o1 o2 h => by rw [h], fun givenRoot f => ?_, ?_, by decide, by decide⟩
  · show posixJoin [[], [], f] = posixNormalize f
    exact posixJoin_empty_empty f
  · intro givenRoot f hnorm
    show posixJoin [[], [], f] = f
    rw [posixJoin_empty_empty f, hnorm]

/-- Witness for C7 on concrete inputs. -/
theorem c7_witness :
    computeDestinations
        { givenRoot := "foo/bar".toList, absoluteRoot := "/w".toList,
          files := ["file1".toList], pfx := [], includeParent := true } =
      computeDestinations
        { givenRoot := "foo/bar".toList, absoluteRoot := "/w".toList,
          files := ["file1".toList], pfx := [], includeParent := true } ∧
    computeDestination "r".toList [] false "a/b.txt".toList = "a/b.txt".toList := by
  have h := c7_computeDestination_pure_and_examples
  exact ⟨h.1 _ _ rfl, h.2.2.1 "r".toList "a/b.txt".toList (by decide)⟩

/-- C4 counterexample: the claim says a file whose ignore predicate throws
is excluded from the upload set, but the code logs the failure and keeps
the file.  With files `["a", "b"]` and a predicate that throws on `"a"`,
the filtered list still contains `"a"`. -/
theorem c4_counterexample :
    processIgnores
        (fun f => if f = ['a'] then Except.error "boom" else Except.ok false)
        [['a'], ['b']] = [['a'], ['b']] ∧
      ['a'] ∈ processIgnores
        (fun f => if f = ['a'] then Except.error "boom" else Except.ok false)
        [['a'], ['b']] := by
  exact ⟨rfl, by decide⟩

/-- C4 (amended): when evaluating the ignore predicate on a file throws,
the error is logged and the file is retained in the upload set (the run is
not aborted); files for which the predicate returns `true` are removed;
the relative order of the remaining files is preserved (the result is a
sublist of the input). -/
theorem c4_processIgnores_amended (ign : List Char → Except String Bool)
    (files : List (List Char)) :
    processIgnores ign files =
      files.filter (fun f =>
        match ign f with | .ok true => false | _ => true) ∧
    (processIgnores ign files).Sublist files ∧
    (∀ f ∈ processIgnores ign files, ign f ≠ .ok true) ∧
    (∀ f ∈ files, ign f ≠ .ok true → f ∈ processIgnores ign files) := by
  have hfilter : processIgnores ign files =
      files.filter (fun f =>
        match ign f with | .ok true => false | _ => true) := by
    induction files with
    | nil => rfl
    | cons f rest ih =>
      rw [List.filter_cons]
      have hunf : processIgnores ign (f :: rest) =
          match ign f with
          | .ok true => processIgnores ign rest
          | _ => f :: processIgnores ign rest := rfl
      rw [hunf]
      cases hf : ign f with
      | ok b =>
        cases b with
        | true => exact ih
        | false => exact congrArg (List.cons f) ih
      | error e => exact congrArg (List.cons f) ih
  refine ⟨hfilter, ?_, ?_, ?_⟩
  · rw [hfilter]
    exact List.filter_sublist files
  · intro f hf
    rw [hfilter] at hf
    have hp := (List.mem_filter.mp hf).2
    intro heq
    rw [heq] at hp
    exact Bool.noConfusion hp
  · intro f hf hne
    rw [hfilter]
    refine List.mem_filter.mpr ⟨hf, ?_⟩
    cases hi : ign f with
    | ok b =>
      cases b with
      | true => exact absurd hi hne
      | false => rfl
    | error e => rfl

/-- Witness for the amended C4 at a concrete predicate and file list. -/
theorem c4_witness :
    ['b'] ∈ processIgnores
      (fun f => if f = ['a'] then Except.ok true else Except.ok false)
      [['a'], ['b']] := by
  have h := c4_processIgnores_amended
    (fun f => if f = ['a'] then Except.ok true else Except.ok false)
    [['a'], ['b']]
  exact h.2.2.2 ['b'] (by decide) (by simp)

/-- C8: `includeParent` only takes effect when the given root was
genuinely a directory.  Whenever the given root resolves to a regular
file, the pipeline of `run` computes destinations with the parent flag
forced to `false` (so a single uploaded file is never nested under its own
name), and the run is identical to one where the caller had passed
`parent: false`. -/
theorem c8_includeParent_forced_false_for_file_root
    (fsFiles fsDirs : List (List Char)) (ws root glob pfx : List Char)
    (hfile : posixResolve ws (toPosixChars root) ∈ fsFiles) :
    (∀ b : Bool, runComputeDestinations fsFiles fsDirs ws root glob pfx b =
      runComputeDestinations fsFiles fsDirs ws root glob pfx false) ∧
    (glob = [] → ∀ b : Bool,
      runComputeDestinations fsFiles fsDirs ws root glob pfx b =
        .ok (computeDestinations
          { givenRoot := root,
            absoluteRoot := posixDirname (posixResolve ws (toPosixChars root)),
            files := expandGlob fsFiles
              (posixDirname (posixResolve ws (toPosixChars root)))
              (toPosixChars (posixBasename (posixResolve ws (toPosixChars root)))),
            pfx := pfx, includeParent := false })) := by
  have hbranch : ∀ b : Bool, runComputeDestinations fsFiles fsDirs ws root glob pfx b =
      if glob ≠ [] then .error conflictingGlobMsg
      else .ok (computeDestinations
        { givenRoot := root,
          absoluteRoot := posixDirname (posixResolve ws (toPosixChars root)),
          files := expandGlob fsFiles
            (posixDirname (posixResolve ws (toPosixChars root)))
            (toPosixChars (posixBasename (posixResolve ws (toPosixChars root)))),
          pfx := pfx, includeParent := b && false }) := by
    intro b
    unfold runComputeDestinations absoluteRootAndComputedGlob
    rw [if_pos hfile]
    by_cases hg : glob = []
    · rw [if_neg (by simpa using hg), if_neg (by simpa using hg)]
      rfl
    · rw [if_pos hg, if_pos hg]
      rfl
  constructor
  · intro b
    rw [hbranch b, hbranch false, Bool.and_false, Bool.and_false]
  · intro hg b
    rw [hbranch b, if_neg (by simpa using hg), Bool.and_false]

/-- Witness for C8 with a one-file filesystem: uploading the single file
`/w/a.txt` via root `a.txt` produces the same destinations whether the
caller set the parent flag or not. -/
theorem c8_witness :
    runComputeDestinations ["/w/a.txt".toList] ["/w".toList] "/w".toList
        "a.txt".toList [] "p".toList true =
      runComputeDestinations ["/w/a.txt".toList] ["/w".toList] "/w".toList
        "a.txt".toList [] "p".toList false :=
  (c8_includeParent_forced_false_for_file_root ["/w/a.txt".toList]
    ["/w".toList] "/w".toList "a.txt".toList [] "p".toList (by decide)).1 true

/-! ### Lemmas about splitting and joining path strings -/

/-- Splitting never produces an empty chunk list. -/
theorem splitOnChar_ne_nil (sep : Char) (s : List Char) :
    splitOnChar sep s ≠ [] := by
  cases s with
  | nil => simp [splitOnChar]
  | cons c cs =>
    unfold splitOnChar
    by_cases h : c = sep
    · simp [h]
    · rw [if_neg h]
      cases hs : splitOnChar sep cs with
      | nil => simp
      | cons p ps => simp

/-- No chunk produced by splitting contains the separator. -/
theorem sep_not_mem_splitOnChar (sep : Char) (s : List Char) :
    ∀ part ∈ splitOnChar sep s, sep ∉ part := by
  induction s with
  | nil =>
    intro part hp
    simp [splitOnChar] at hp
    simp [hp]
  | cons c cs ih =>
    intro part hp
    unfold splitOnChar at hp
    by_cases h : c = sep
    · rw [if_pos h] at hp
      cases hp with
      | head => simp
      | tail _ hmem => exact ih part hmem
    · rw [if_neg h] at hp
      cases hs : splitOnChar sep cs with
      | nil => exact absurd hs (splitOnChar_ne_nil sep cs)
      | cons p ps =>
        rw [hs] at hp
        cases hp with
        | head =>
          intro hmem
          cases hmem with
          | head => exact h rfl
          | tail _ hmem2 =>
            exact ih p (hs ▸ List.mem_cons_self p ps) hmem2
        | tail _ hmem => exact ih part (hs ▸ List.mem_cons_of_mem p hmem)

/-- Every character of a chunk comes from the split string. -/
theorem mem_of_mem_splitOnChar (sep : Char) (s : List Char) :
    ∀ part ∈ splitOnChar sep s, ∀ c ∈ part, c ∈ s := by
  induction s with
  | nil =>
    intro part hp c hc
    simp [splitOnChar] at hp
    rw [hp] at hc
    cases hc
  | cons d cs ih =>
    intro part hp c hc
    unfold splitOnChar at hp
    by_cases h : d = sep
    · rw [if_pos h] at hp
      cases hp with
      | head => cases hc
      | tail _ hmem => exact List.mem_cons_of_mem d (ih part hmem c hc)
    · rw [if_neg h] at hp
      cases hs : splitOnChar sep cs with
      | nil => exact absurd hs (splitOnChar_ne_nil sep cs)
      | cons p ps =>
        rw [hs] at hp
        cases hp with
        | head =>
          cases hc with
          | head => exact List.mem_cons_self d cs
          | tail _ hc2 =>
            exact List.mem_cons_of_mem d
              (ih p (hs ▸ List.mem_cons_self p ps) c hc2)
        | tail _ hmem =>
          exact List.mem_cons_of_mem d
            (ih part (hs ▸ List.mem_cons_of_mem p hmem) c hc)

/-- A separator-free string splits into itself. -/
theorem splitOnChar_sepFree (sep : Char) (s : List Char) (h : sep ∉ s) :
    splitOnChar sep s = [s] := by
  induction s with
  | nil => rfl
  | cons c cs ih =>
    unfold splitOnChar
    have hc : c ≠ sep := fun hcc => h (hcc ▸ List.mem_cons_self c cs)
    rw [if_neg hc, ih (fun hmem => h (List.mem_cons_of_mem c hmem))]

/-- Splitting distributes over a separator occurrence. -/
theorem splitOnChar_append (sep : Char) (a b : List Char) :
    splitOnChar sep (a ++ sep :: b) = splitOnChar sep a ++ splitOnChar sep b := by
  induction a with
  | nil => simp [splitOnChar]
  | cons c cs ih =>
    by_cases h : c = sep
    · have l1 : splitOnChar sep (c :: (cs ++ sep :: b)) =
          [] :: splitOnChar sep (cs ++ sep :: b) := by
        simp [splitOnChar, h]
      have l2 : splitOnChar sep (c :: cs) = [] :: splitOnChar sep cs := by
        simp [splitOnChar, h]
      rw [List.cons_append, l1, l2, ih, List.cons_append]
    · cases hs : splitOnChar sep cs with
      | nil => exact absurd hs (splitOnChar_ne_nil sep cs)
      | cons p ps =>
        have l1 : splitOnChar sep (c :: (cs ++ sep :: b)) =
            (c :: p) :: (ps ++ splitOnChar sep b) := by
          have hmid : splitOnChar sep (cs ++ sep :: b) =
              p :: (ps ++ splitOnChar sep b) := by
            rw [ih, hs, List.cons_append]
          simp [splitOnChar, h, hmid]
        have l2 : splitOnChar sep (c :: cs) = (c :: p) :: ps := by
          simp [splitOnChar, h, hs]
        rw [List.cons_append, l1, l2, List.cons_append]

/-- Unfolding of `List.intercalate` on two or more chunks. -/
theorem intercalate_cons_cons (d a b : List Char) (t : List (List Char)) :
    List.intercalate d (a :: b :: t) = a ++ d ++ List.intercalate d (b :: t) := by
  simp [List.intercalate]

/-- Splitting undoes joining for separator-free chunks. -/
theorem splitOnChar_intercalate_sepFree (sep : Char) (L : List (List Char))
    (hne : L ≠ []) (h : ∀ x ∈ L, sep ∉ x) :
    splitOnChar sep (List.intercalate [sep] L) = L := by
  induction L with
  | nil => exact absurd rfl hne
  | cons x t ih =>
    cases t with
    | nil =>
      have : List.intercalate [sep] [x] = x := by simp [List.intercalate]
      rw [this]
      exact splitOnChar_sepFree sep x (h x (List.mem_cons_self x []))
    | cons y t2 =>
      rw [intercalate_cons_cons]
      rw [List.append_assoc, List.singleton_append, splitOnChar_append]
      rw [splitOnChar_sepFree sep x (h x (List.mem_cons_self x _))]
      rw [ih (by simp) (fun z hz => h z (List.mem_cons_of_mem x hz))]
      rfl

/-- The non-empty chunks of a `/`-joined list are the concatenation of the
chunk lists of the parts. -/
theorem pathSegs_intercalate (L : List (List Char)) (hne : L ≠ []) :
    pathSegs (List.intercalate ['/'] L) = L.flatMap pathSegs := by
  induction L with
  | nil => exact absurd rfl hne
  | cons x t ih =>
    cases t with
    | nil => simp [List.intercalate]
    | cons y t2 =>
      rw [intercalate_cons_cons, List.append_assoc, List.singleton_append]
      unfold pathSegs splitSlash
      rw [splitOnChar_append, List.filter_append]
      have ihy := ih (by simp)
      unfold pathSegs splitSlash at ihy
      rw [ihy]
      simp [pathSegs, splitSlash]

/-- The head of a `/`-joined list with a non-empty first chunk is the head
of that chunk. -/
theorem head?_intercalate (d x : List Char) (t : List (List Char)) (hx : x ≠ []) :
    (List.intercalate d (x :: t)).head? = x.head? := by
  cases t with
  | nil =>
    simp [List.intercalate]
  | cons y t2 =>
    rw [intercalate_cons_cons, List.append_assoc, List.head?_append]
    cases x with
    | nil => exact absurd rfl hx
    | cons c cs => rfl

/-- Every character of a `/`-joined list is the separator or a character
of one of the chunks. -/
theorem mem_intercalate (d : List Char) (L : List (List Char)) (c : Char)
    (hc : c ∈ List.intercalate d L) : c ∈ d ∨ ∃ x ∈ L, c ∈ x := by
  induction L with
  | nil => simp [List.intercalate] at hc
  | cons x t ih =>
    cases t with
    | nil =>
      have hx : List.intercalate d [x] = x := by simp [List.intercalate]
      rw [hx] at hc
      exact Or.inr ⟨x, List.mem_cons_self x [], hc⟩
    | cons y t2 =>
      rw [intercalate_cons_cons] at hc
      rcases List.mem_append.mp hc with h1 | h2
      · rcases List.mem_append.mp h1 with h3 | h4
        · exact Or.inr ⟨x, List.mem_cons_self x _, h3⟩
        · exact Or.inl h4
      · rcases ih h2 with h5 | ⟨z, hz, hcz⟩
        · exact Or.inl h5
        · exact Or.inr ⟨z, List.mem_cons_of_mem x hz, hcz⟩

/-- Everything in the output of the normalization walk is either carried
over from the initial stack or is a non-empty, non-`.` chunk of the
input. -/
theorem mem_normSegsAux (allow : Bool) (l : List (List Char)) :
    ∀ (acc : List (List Char)) (x : List Char),
      x ∈ normSegsAux allow acc l →
        x ∈ acc ∨ (x ∈ l ∧ x ≠ [] ∧ x ≠ ['.']) := by
  induction l with
  | nil =>
    intro acc x hx
    exact Or.inl (List.mem_reverse.mp hx)
  | cons s rest ih =>
    intro acc x hx
    unfold normSegsAux at hx
    by_cases h1 : s = [] ∨ s = ['.']
    · rw [if_pos h1] at hx
      rcases ih acc x hx with h | ⟨hl, hne, hnd⟩
      · exact Or.inl h
      · exact Or.inr ⟨List.mem_cons_of_mem s hl, hne, hnd⟩
    · rw [if_neg h1] at hx
      have hs1 : s ≠ [] := fun h => h1 (Or.inl h)
      have hs2 : s ≠ ['.'] := fun h => h1 (Or.inr h)
      by_cases h2 : s = ['.', '.']
      · rw [if_pos h2] at hx
        cases acc with
        | nil =>
          have hx2 : x ∈ (if allow = true then normSegsAux allow [s] rest
              else normSegsAux allow [] rest) := hx
          by_cases h3 : allow = true
          · rw [if_pos h3] at hx2
            rcases ih [s] x hx2 with h | ⟨hl, hne, hnd⟩
            · have hxs : x = s := List.mem_singleton.mp h
              rw [hxs]
              exact Or.inr ⟨List.mem_cons_self s rest, hs1, hs2⟩
            · exact Or.inr ⟨List.mem_cons_of_mem s hl, hne, hnd⟩
          · rw [if_neg h3] at hx2
            rcases ih [] x hx2 with h | ⟨hl, hne, hnd⟩
            · cases h
            · exact Or.inr ⟨List.mem_cons_of_mem s hl, hne, hnd⟩
        | cons t ts =>
          have hx2 : x ∈ (if t = ['.', '.'] then normSegsAux allow (s :: t :: ts) rest
              else normSegsAux allow ts rest) := hx
          by_cases h4 : t = ['.', '.']
          · rw [if_pos h4] at hx2
            rcases ih (s :: t :: ts) x hx2 with h | ⟨hl, hne, hnd⟩
            · cases h with
              | head => exact Or.inr ⟨List.mem_cons_self s rest, hs1, hs2⟩
              | tail _ h5 => exact Or.inl h5
            · exact Or.inr ⟨List.mem_cons_of_mem s hl, hne, hnd⟩
          · rw [if_neg h4] at hx2
            rcases ih ts x hx2 with h | ⟨hl, hne, hnd⟩
            · exact Or.inl (List.mem_cons_of_mem t h)
            · exact Or.inr ⟨List.mem_cons_of_mem s hl, hne, hnd⟩
      · rw [if_neg h2] at hx
        rcases ih (s :: acc) x hx with h | ⟨hl, hne, hnd⟩
        · cases h with
          | head => exact Or.inr ⟨List.mem_cons_self s rest, hs1, hs2⟩
          | tail _ h5 => exact Or.inl h5
        · exact Or.inr ⟨List.mem_cons_of_mem s hl, hne, hnd⟩

/-- On a list of well-formed segments the normalization walk is a no-op
and empties the stack in front of it. -/
theorem normSegsAux_all_good (allow : Bool) (l : List (List Char))
    (h : ∀ x ∈ l, goodSeg x = true) :
    ∀ acc : List (List Char), normSegsAux allow acc l = acc.reverse ++ l := by
  induction l with
  | nil =>
    intro acc
    simp [normSegsAux]
  | cons s rest ih =>
    intro acc
    have hg := h s (List.mem_cons_self s rest)
    simp only [goodSeg, decide_eq_true_eq, Bool.decide_and, Bool.and_eq_true,
      decide_eq_true_eq] at hg
    unfold normSegsAux
    rw [if_neg (by push_neg; exact ⟨by simpa using hg.1, by simpa using hg.2.2.1⟩)]
    rw [if_neg (by simpa using hg.2.2.2)]
    rw [ih (fun x hx => h x (List.mem_cons_of_mem s hx)) (s :: acc)]
    simp

/-- Resolving a normal-form absolute path recovers its segments. -/
theorem resolveAbsSegs_absOf (segs : List (List Char))
    (h : ∀ x ∈ segs, goodSeg x = true) :
    resolveAbsSegs (absOf segs) = segs := by
  cases segs with
  | nil => rfl
  | cons x rest =>
    have hsep : ∀ z ∈ x :: rest, '/' ∉ z := by
      intro z hz
      have hg := h z hz
      simp only [goodSeg, Bool.decide_and, Bool.and_eq_true, decide_eq_true_eq] at hg
      exact hg.2.1
    have hsplit : splitSlash (absOf (x :: rest)) =
        [] :: (x :: rest) := by
      unfold absOf splitSlash
      have : splitOnChar '/' ('/' :: List.intercalate ['/'] (x :: rest)) =
          [] :: splitOnChar '/' (List.intercalate ['/'] (x :: rest)) := by
        simp [splitOnChar]
      rw [this, splitOnChar_intercalate_sepFree '/' (x :: rest) (by simp) hsep]
    unfold resolveAbsSegs
    rw [hsplit]
    have hskip : normSegsAux false [] ([] :: (x :: rest)) =
        normSegsAux false [] (x :: rest) := by
      simp [normSegsAux]
    rw [hskip, normSegsAux_all_good false (x :: rest) h []]
    rfl

/-! ### Sorting lemmas -/

/-- Totality of the JavaScript string order. -/
theorem listCharLe_total : ∀ a b : List Char,
    listCharLe a b = true ∨ listCharLe b a = true := by
  intro a
  induction a with
  | nil => intro b; exact Or.inl rfl
  | cons x as ih =>
    intro b
    cases b with
    | nil => exact Or.inr rfl
    | cons y bs =>
      unfold listCharLe
      by_cases h1 : x < y
      · exact Or.inl (by rw [if_pos h1])
      · by_cases h2 : y < x
        · refine Or.inr ?_
          rw [if_pos h2]
        · rw [if_neg h1, if_neg h2, if_neg h2, if_neg h1]
          exact ih bs

/-- Transitivity of the JavaScript string order. -/
theorem listCharLe_trans : ∀ a b c : List Char,
    listCharLe a b = true → listCharLe b c = true → listCharLe a c = true := by
  intro a
  induction a with
  | nil => intro b c _ _; rfl
  | cons x as ih =>
    intro b c hab hbc
    cases b with
    | nil => exact absurd hab (by simp [listCharLe])
    | cons y bs =>
      cases c with
      | nil => exact absurd hbc (by simp [listCharLe])
      | cons z cs =>
        unfold listCharLe at hab hbc ⊢
        by_cases hxy : x < y
        · by_cases hyz : y < z
          · rw [if_pos (lt_trans hxy hyz)]
          · by_cases hzy : z < y
            · rw [if_neg hyz, if_pos hzy] at hbc
              exact absurd hbc (by simp)
            · have hyez : y = z := le_antisymm (le_of_not_lt hzy) (le_of_not_lt hyz)
              rw [if_pos (hyez ▸ hxy)]
        · by_cases hyx : y < x
          · rw [if_neg hxy, if_pos hyx] at hab
            exact absurd hab (by simp)
          · have hxey : x = y := le_antisymm (le_of_not_lt hyx) (le_of_not_lt hxy)
            subst hxey
            rw [if_neg hxy, if_neg hxy] at hab
            by_cases hyz : x < z
            · rw [if_pos hyz]
            · by_cases hzy : z < x
              · rw [if_neg hyz, if_pos hzy] at hbc
                exact absurd hbc (by simp)
              · rw [if_neg hyz, if_neg hzy] at hbc ⊢
                exact ih bs cs hab hbc

/-- Inserting permutes. -/
theorem insertLe_perm (a : List Char) (l : List (List Char)) :
    (insertLe a l).Perm (a :: l) := by
  induction l with
  | nil => exact List.Perm.refl _
  | cons b bs ih =>
    unfold insertLe
    by_cases h : listCharLe a b = true
    · rw [if_pos h]
    · rw [if_neg h]
      exact (ih.cons b).trans (List.Perm.swap a b bs)

/-- Sorting permutes. -/
theorem sortJS_perm (l : List (List Char)) : (sortJS l).Perm l := by
  induction l with
  | nil => exact List.Perm.refl _
  | cons a as ih => exact (insertLe_perm a (sortJS as)).trans (ih.cons a)

/-- Membership is preserved by sorting. -/
theorem mem_sortJS (x : List Char) (l : List (List Char)) :
    x ∈ sortJS l ↔ x ∈ l :=
  (sortJS_perm l).mem_iff

/-- Sorting keeps a duplicate-free list duplicate-free. -/
theorem sortJS_nodup (l : List (List Char)) (h : l.Nodup) :
    (sortJS l).Nodup :=
  (sortJS_perm l).symm.nodup h

/-- Inserting into a sorted list keeps it sorted. -/
theorem insertLe_sorted (a : List Char) (l : List (List Char))
    (hl : l.Pairwise (fun x y => listCharLe x y = true)) :
    (insertLe a l).Pairwise (fun x y => listCharLe x y = true) := by
  induction l with
  | nil => simp [insertLe]
  | cons b bs ih =>
    unfold insertLe
    rcases List.pairwise_cons.mp hl with ⟨hb, hbs⟩
    by_cases h : listCharLe a b = true
    · rw [if_pos h]
      refine List.pairwise_cons.mpr ⟨?_, hl⟩
      intro z hz
      cases hz with
      | head => exact h
      | tail _ hz2 => exact listCharLe_trans a b z h (hb z hz2)
    · rw [if_neg h]
      have hba : listCharLe b a = true := (listCharLe_total a b).resolve_left h
      refine List.pairwise_cons.mpr ⟨?_, ih hbs⟩
      intro z hz
      rcases List.mem_cons.mp ((insertLe_perm a bs).mem_iff.mp hz) with hz2 | hz2
      · exact hz2 ▸ hba
      · exact hb z hz2

/-- The output of `sortJS` is sorted in the JavaScript string order. -/
theorem sortJS_sorted (l : List (List Char)) :
    (sortJS l).Pairwise (fun x y => listCharLe x y = true) := by
  induction l with
  | nil => exact List.Pairwise.nil
  | cons a as ih => exact insertLe_sorted a (sortJS as) ih

/-! ### Lemmas about `path.posix.relative` -/

/-- The common prefix is no longer than the first list. -/
theorem commonPrefixLen_le_left :
    ∀ F T : List (List Char), commonPrefixLen F T ≤ F.length := by
  intro F
  induction F with
  | nil => intro T; cases T <;> simp [commonPrefixLen]
  | cons a as ih =>
    intro T
    cases T with
    | nil => simp [commonPrefixLen]
    | cons b bs =>
      unfold commonPrefixLen
      by_cases h : a = b
      · rw [if_pos h]
        exact Nat.succ_le_succ (ih bs)
      · rw [if_neg h]
        exact Nat.zero_le _

/-- Both lists agree on their common prefix. -/
theorem take_commonPrefixLen_eq :
    ∀ F T : List (List Char),
      F.take (commonPrefixLen F T) = T.take (commonPrefixLen F T) := by
  intro F
  induction F with
  | nil => intro T; cases T <;> simp [commonPrefixLen]
  | cons a as ih =>
    intro T
    cases T with
    | nil => simp [commonPrefixLen]
    | cons b bs =>
      unfold commonPrefixLen
      by_cases h : a = b
      · rw [if_pos h]
        simp only [List.take_succ_cons]
        rw [h, ih bs]
      · rw [if_neg h]
        simp

/-- The common prefix of a list with an extension of itself is the whole
list. -/
theorem commonPrefixLen_append :
    ∀ L M : List (List Char), commonPrefixLen L (L ++ M) = L.length := by
  intro L M
  induction L with
  | nil => cases M <;> simp [commonPrefixLen]
  | cons a as ih =>
    show commonPrefixLen (a :: as) (a :: (as ++ M)) = as.length + 1
    unfold commonPrefixLen
    rw [if_pos rfl, ih]

/-- Every entry of the relative segment list is non-empty and slash-free
when the target segments are well-formed. -/
theorem relSegsList_elems (F T : List (List Char))
    (hT : ∀ x ∈ T, goodSeg x = true) :
    ∀ x ∈ relSegsList F T, x ≠ [] ∧ '/' ∉ x := by
  intro x hx
  unfold relSegsList at hx
  rcases List.mem_append.mp hx with h | h
  · have := List.eq_of_mem_replicate h
    subst this
    refine ⟨by simp, by simp⟩
  · have hmem : x ∈ T := List.drop_subset _ T h
    have hg := hT x hmem
    simp only [goodSeg, Bool.decide_and, Bool.and_eq_true, decide_eq_true_eq] at hg
    exact ⟨by simpa using hg.1, hg.2.1⟩

/-- The leading `..` run of the relative segment list has exactly the
length of the unshared part of the source path. -/
theorem takeWhile_relSegsList (F T : List (List Char))
    (hT : ∀ x ∈ T, goodSeg x = true) :
    (relSegsList F T).takeWhile (· = ['.', '.']) =
      List.replicate (F.length - commonPrefixLen F T) ['.', '.'] := by
  unfold relSegsList
  have hrest : ∀ x ∈ T.drop (commonPrefixLen F T), ¬(x = ['.', '.']) := by
    intro x hx heq
    have hg := hT x (List.drop_subset _ T hx)
    simp only [goodSeg, Bool.decide_and, Bool.and_eq_true, decide_eq_true_eq] at hg
    exact hg.2.2.2 heq
  generalize F.length - commonPrefixLen F T = n
  generalize hR : T.drop (commonPrefixLen F T) = rest
  rw [hR] at hrest
  clear hR
  induction n with
  | zero =>
    simp only [List.replicate, List.nil_append]
    cases rest with
    | nil => rfl
    | cons r rs =>
      rw [List.takeWhile_cons_of_neg]
      simp only [decide_eq_true_eq]
      exact hrest r (List.mem_cons_self r rs)
  | succ m ih =>
    rw [List.replicate_succ, List.cons_append, List.takeWhile_cons_of_pos (by simp)]
    rw [ih]

/-- The target path is recoverable from the source segments and the
relative segment list. -/
theorem recover_relSegsList (F T : List (List Char))
    (hT : ∀ x ∈ T, goodSeg x = true) :
    F.take (F.length - ((relSegsList F T).takeWhile (· = ['.', '.'])).length) ++
      (relSegsList F T).drop
        (((relSegsList F T).takeWhile (· = ['.', '.'])).length) = T := by
  rw [takeWhile_relSegsList F T hT, List.length_replicate]
  have hk : commonPrefixLen F T ≤ F.length := commonPrefixLen_le_left F T
  have hd : F.length - (F.length - commonPrefixLen F T) = commonPrefixLen F T :=
    Nat.sub_sub_self hk
  rw [hd]
  unfold relSegsList
  have hdrop : (List.replicate (F.length - commonPrefixLen F T)
        (['.', '.'] : List Char) ++ T.drop (commonPrefixLen F T)).drop
        (F.length - commonPrefixLen F T) = T.drop (commonPrefixLen F T) := by
    have hlen : (List.replicate (F.length - commonPrefixLen F T)
        (['.', '.'] : List Char)).length = F.length - commonPrefixLen F T :=
      List.length_replicate _ _
    exact List.drop_left' hlen
  rw [hdrop, take_commonPrefixLen_eq F T, List.take_append_drop]

/-- A non-empty chunk list joins to a non-empty string when its first
chunk is non-empty. -/
theorem intercalate_ne_nil (d x : List Char) (t : List (List Char)) (hx : x ≠ []) :
    List.intercalate d (x :: t) ≠ [] := by
  intro h
  have := head?_intercalate d x t hx
  rw [h] at this
  cases x with
  | nil => exact hx rfl
  | cons c cs => exact Option.noConfusion this

/-- Injectivity of `path.posix.relative` in its second argument, at the
segment level: two normalized targets with the same rendered relative path
from the same source are equal. -/
theorem relSegs_inj (F T1 T2 : List (List Char))
    (h1 : ∀ x ∈ T1, goodSeg x = true) (h2 : ∀ x ∈ T2, goodSeg x = true)
    (heq : List.intercalate ['/'] (relSegsList F T1) =
      List.intercalate ['/'] (relSegsList F T2)) :
    T1 = T2 := by
  have hReq : relSegsList F T1 = relSegsList F T2 := by
    by_cases hn1 : relSegsList F T1 = []
    · by_cases hn2 : relSegsList F T2 = []
      · rw [hn1, hn2]
      · exfalso
        cases hv2 : relSegsList F T2 with
        | nil => exact hn2 hv2
        | cons y ys =>
          have hy : y ≠ [] := ((relSegsList_elems F T2 h2 y
            (hv2 ▸ List.mem_cons_self y ys))).1
          have : List.intercalate ['/'] (relSegsList F T2) ≠ [] := by
            rw [hv2]
            exact intercalate_ne_nil ['/'] y ys hy
          rw [← heq, hn1] at this
          simp [List.intercalate] at this
    · by_cases hn2 : relSegsList F T2 = []
      · exfalso
        cases hv1 : relSegsList F T1 with
        | nil => exact hn1 hv1
        | cons y ys =>
          have hy : y ≠ [] := ((relSegsList_elems F T1 h1 y
            (hv1 ▸ List.mem_cons_self y ys))).1
          have : List.intercalate ['/'] (relSegsList F T1) ≠ [] := by
            rw [hv1]
            exact intercalate_ne_nil ['/'] y ys hy
          rw [heq, hn2] at this
          simp [List.intercalate] at this
      · have r1 : splitOnChar '/' (List.intercalate ['/'] (relSegsList F T1)) =
            relSegsList F T1 :=
          splitOnChar_intercalate_sepFree '/' _ hn1
            (fun x hx => (relSegsList_elems F T1 h1 x hx).2)
        have r2 : splitOnChar '/' (List.intercalate ['/'] (relSegsList F T2)) =
            relSegsList F T2 :=
          splitOnChar_intercalate_sepFree '/' _ hn2
            (fun x hx => (relSegsList_elems F T2 h2 x hx).2)
        rw [← r1, ← r2, heq]
  have g1 := recover_relSegsList F T1 h1
  have g2 := recover_relSegsList F T2 h2
  rw [hReq] at g1
  exact g1.symm.trans g2

/-- Unpacking of the normal-form predicate. -/
theorem resolveAbsSegs_of_isNormAbs (p : List Char) (h : isNormAbs p = true) :
    resolveAbsSegs p = pathSegs p ∧ p = absOf (pathSegs p) ∧
      ∀ x ∈ pathSegs p, goodSeg x = true := by
  simp only [isNormAbs, Bool.decide_and, Bool.and_eq_true, decide_eq_true_eq,
    List.all_eq_true] at h
  obtain ⟨hp, hall⟩ := h
  refine ⟨?_, hp, hall⟩
  conv_lhs => rw [hp]
  exact resolveAbsSegs_absOf _ hall

/-- C6: for every directory root and glob pattern, over a filesystem of
distinct normal-form absolute file paths, single-root expansion returns a
list that is sorted in the JavaScript string order, duplicate-free, and
whose every entry is the posix relative path from the root of one of the
files found by the glob. -/
theorem c6_expandGlob_sorted_nodup_relative (fsFiles : List (List Char))
    (dir glob : List Char)
    (hfs : ∀ p ∈ fsFiles, isNormAbs p = true)
    (hnd : fsFiles.Nodup) :
    (expandGlob fsFiles dir glob).Pairwise (fun x y => listCharLe x y = true) ∧
    (expandGlob fsFiles dir glob).Nodup ∧
    (∀ r ∈ expandGlob fsFiles dir glob, ∃ p ∈ fsFiles,
      r = posixRelative (toPosixChars dir) p) := by
  refine ⟨sortJS_sorted _, ?_, ?_⟩
  · apply sortJS_nodup
    apply List.Nodup.map_on ?_ (hnd.filter _)
    intro x hx y hy hxy
    have hxf : x ∈ fsFiles := List.mem_of_mem_filter hx
    have hyf : y ∈ fsFiles := List.mem_of_mem_filter hy
    obtain ⟨hrx, hpx, hgx⟩ := resolveAbsSegs_of_isNormAbs x (hfs x hxf)
    obtain ⟨hry, hpy, hgy⟩ := resolveAbsSegs_of_isNormAbs y (hfs y hyf)
    have hsegs : pathSegs x = pathSegs y := by
      refine relSegs_inj (resolveAbsSegs (toPosixChars dir)) _ _ hgx hgy ?_
      have hxy2 : posixRelative (toPosixChars dir) x =
          posixRelative (toPosixChars dir) y := hxy
      unfold posixRelative at hxy2
      rw [hrx, hry] at hxy2
      exact hxy2
    rw [hpx, hpy, hsegs]
  · intro r hr
    rcases List.mem_map.mp ((mem_sortJS r _).mp hr) with ⟨p, hp, rfl⟩
    exact ⟨p, List.mem_of_mem_filter hp, rfl⟩

/-- Witness for C6 on a concrete three-file filesystem with the empty
(match-all) glob. -/
theorem c6_witness :
    (expandGlob ["/w/b.txt".toList, "/w/a.txt".toList, "/w/sub/c.txt".toList]
        "/w".toList []).Pairwise (fun x y => listCharLe x y = true) ∧
    (expandGlob ["/w/b.txt".toList, "/w/a.txt".toList, "/w/sub/c.txt".toList]
        "/w".toList []).Nodup := by
  have h := c6_expandGlob_sorted_nodup_relative
    ["/w/b.txt".toList, "/w/a.txt".toList, "/w/sub/c.txt".toList]
    "/w".toList [] (by decide) (by decide)
  exact ⟨h.1, h.2.1⟩

/-! ### Lemmas for the single-file root case -/

/-- `toPosixPath` is the identity on backslash-free strings. -/
theorem toPosixChars_of_no_backslash (s : List Char) (h : '\\' ∉ s) :
    toPosixChars s = s := by
  induction s with
  | nil => rfl
  | cons c cs ih =>
    have hc : c ≠ '\\' := fun hcc => h (hcc ▸ List.mem_cons_self c cs)
    have hcs := ih (fun hm => h (List.mem_cons_of_mem c hm))
    unfold toPosixChars at hcs ⊢
    rw [List.map_cons, if_neg hc, hcs]

/-- Joining after appending a final chunk. -/
theorem intercalate_append_single (sep : Char) (L : List (List Char))
    (x : List Char) (hL : L ≠ []) :
    List.intercalate [sep] (L ++ [x]) =
      List.intercalate [sep] L ++ sep :: x := by
  induction L with
  | nil => exact absurd rfl hL
  | cons a t ih =>
    cases t with
    | nil => simp [List.intercalate]
    | cons b t2 =>
      have ih2 := ih (by simp)
      rw [List.cons_append] at ih2
      rw [List.cons_append, List.cons_append, intercalate_cons_cons, ih2,
        intercalate_cons_cons]
      simp

/-- Slash-splitting a normal-form absolute path yields a leading empty
chunk followed by the segments. -/
theorem splitSlash_absOf (X : List (List Char)) (hne : X ≠ [])
    (hsep : ∀ z ∈ X, '/' ∉ z) :
    splitSlash (absOf X) = [] :: X := by
  unfold absOf splitSlash
  have hstep : splitOnChar '/' ('/' :: List.intercalate ['/'] X) =
      [] :: splitOnChar '/' (List.intercalate ['/'] X) := by
    simp [splitOnChar]
  rw [hstep, splitOnChar_intercalate_sepFree '/' X hne hsep]

/-- The basename of a normal-form absolute path is its last segment. -/
theorem posixBasename_absOf (dsegs : List (List Char)) (base : List Char)
    (hgood : ∀ x ∈ dsegs ++ [base], goodSeg x = true) :
    posixBasename (absOf (dsegs ++ [base])) = base := by
  have hsep : ∀ z ∈ dsegs ++ [base], '/' ∉ z := by
    intro z hz
    have hg := hgood z hz
    simp only [goodSeg, Bool.decide_and, Bool.and_eq_true, decide_eq_true_eq] at hg
    exact hg.2.1
  have hbase : goodSeg base = true := hgood base (by simp)
  have hbne : base ≠ [] := by
    simp only [goodSeg, Bool.decide_and, Bool.and_eq_true, decide_eq_true_eq] at hbase
    simpa using hbase.1
  unfold posixBasename
  rw [splitSlash_absOf (dsegs ++ [base]) (by simp) hsep]
  rw [List.reverse_cons, List.reverse_append]
  cases hb : base with
  | nil => exact absurd hb hbne
  | cons c cs =>
    simp [← hb, hbne]

/-- Dropping leading non-separator characters of a separator-free block
stops exactly at the separator. -/
theorem dropWhile_ne_append (A B : List Char) (h : ∀ c ∈ A, c ≠ '/') :
    List.dropWhile (· ≠ '/') (A ++ '/' :: B) = '/' :: B := by
  induction A with
  | nil => simp [List.dropWhile]
  | cons c cs ih =>
    rw [List.cons_append, List.dropWhile_cons_of_pos
      (by simpa using h c (List.mem_cons_self c cs))]
    exact ih (fun d hd => h d (List.mem_cons_of_mem c hd))

/-- The dirname of a normal-form absolute path with a last segment is the
absolute path of the remaining segments. -/
theorem posixDirname_absOf (dsegs : List (List Char)) (base : List Char)
    (hgood : ∀ x ∈ dsegs ++ [base], goodSeg x = true) :
    posixDirname (absOf (dsegs ++ [base])) = absOf dsegs := by
  have hbase : goodSeg base = true := hgood base (by simp)
  simp only [goodSeg, Bool.decide_and, Bool.and_eq_true, decide_eq_true_eq] at hbase
  have hbne : base ≠ [] := by simpa using hbase.1
  have hbsep : '/' ∉ base := hbase.2.1
  cases dsegs with
  | nil =>
    have hbody : absOf ([] ++ [base]) = '/' :: base := by
      simp [absOf, List.intercalate]
    rw [hbody]
    unfold posixDirname dirnameRev
    have hdrop1 : List.dropWhile (· = '/') (('/' :: base).drop 1).reverse =
        base.reverse := by
      cases hb : base.reverse with
      | nil => simp [hb]
      | cons c cs =>
        have hc : c ∈ base := by
          rw [← List.mem_reverse, hb]
          exact List.mem_cons_self c cs
        simp only [List.drop_one, List.tail_cons, hb]
        rw [List.dropWhile_cons_of_neg]
        simp only [decide_eq_true_eq]
        exact fun hcc => hbsep (hcc ▸ hc)
    have hdrop2 : List.dropWhile (· ≠ '/') base.reverse = [] := by
      rw [List.dropWhile_eq_nil_iff]
      intro x hx
      simp only [ne_eq, decide_not, Bool.not_eq_eq_eq_not, Bool.not_true,
        decide_eq_false_iff_not]
      exact fun hxx => hbsep (hxx ▸ List.mem_reverse.mp hx)
    rw [if_neg (by simp), hdrop1, hdrop2]
    rw [if_pos rfl]
    rfl
  | cons d ds =>
    have hDne : List.intercalate ['/'] (d :: ds) ≠ [] := by
      refine intercalate_ne_nil ['/'] d ds ?_
      have hg := hgood d (by simp)
      simp only [goodSeg, Bool.decide_and, Bool.and_eq_true, decide_eq_true_eq] at hg
      simpa using hg.1
    have hbody : absOf ((d :: ds) ++ [base]) =
        '/' :: (List.intercalate ['/'] (d :: ds) ++ '/' :: base) := by
      unfold absOf
      rw [intercalate_append_single '/' (d :: ds) base (by simp)]
    rw [hbody]
    unfold posixDirname dirnameRev
    have hrev : (('/' :: (List.intercalate ['/'] (d :: ds) ++ '/' :: base)).drop 1).reverse =
        base.reverse ++ '/' :: (List.intercalate ['/'] (d :: ds)).reverse := by
      simp
    have hdrop1 : List.dropWhile (· = '/')
        (base.reverse ++ '/' :: (List.intercalate ['/'] (d :: ds)).reverse) =
        base.reverse ++ '/' :: (List.intercalate ['/'] (d :: ds)).reverse := by
      cases hb : base.reverse with
      | nil =>
        exact absurd (by simpa using congrArg List.reverse hb) hbne
      | cons c cs =>
        rw [List.cons_append]
        rw [List.dropWhile_cons_of_neg]
        simp only [decide_eq_true_eq]
        have hc : c ∈ base := by
          rw [← List.mem_reverse, hb]
          exact List.mem_cons_self c cs
        exact fun hcc => hbsep (hcc ▸ hc)
    have hdrop2 : List.dropWhile (· ≠ '/')
        (base.reverse ++ '/' :: (List.intercalate ['/'] (d :: ds)).reverse) =
        '/' :: (List.intercalate ['/'] (d :: ds)).reverse := by
      refine dropWhile_ne_append base.reverse _ ?_
      intro c hc hcc
      exact hbsep (hcc ▸ List.mem_reverse.mp hc)
    rw [hrev, hdrop1, hdrop2]
    have hlen : ('/' :: (List.intercalate ['/'] (d :: ds)).reverse).length ≠ 1 := by
      simp only [List.length_cons, List.length_reverse]
      intro h1
      exact hDne (List.eq_nil_of_length_eq_zero (Nat.succ_injective h1))
    have h1 : ¬('/' :: (List.intercalate ['/'] (d :: ds)).reverse = []) := by simp
    have h2 : ¬(('/' :: (List.intercalate ['/'] (d :: ds) ++ '/' :: base)).head? =
        some '/' ∧ ('/' :: (List.intercalate ['/'] (d :: ds)).reverse).length = 1) :=
      fun hcon => hlen hcon.2
    rw [if_neg h1, if_neg h2]
    have htake : ('/' :: (List.intercalate ['/'] (d :: ds) ++ '/' :: base)).take
        ('/' :: (List.intercalate ['/'] (d :: ds)).reverse).length =
        '/' :: List.intercalate ['/'] (d :: ds) := by
      simp only [List.length_cons, List.length_reverse, List.take_succ_cons]
      exact congrArg (List.cons '/') (List.take_left _ _)
    rw [htake]
    rfl

/-- Without `*` and `?`, a glob segment matches only itself. -/
theorem segMatch_literal (p : List Char) (hstar : '*' ∉ p) (hq : '?' ∉ p) :
    ∀ s : List Char, (segMatch p s = true ↔ s = p) := by
  induction p with
  | nil =>
    intro s
    cases s <;> simp [segMatch]
  | cons c ps ih =>
    intro s
    have hcs : c ≠ '*' := fun h => hstar (h ▸ List.mem_cons_self c ps)
    have hcq : c ≠ '?' := fun h => hq (h ▸ List.mem_cons_self c ps)
    have ihs := ih (fun h => hstar (List.mem_cons_of_mem c h))
      (fun h => hq (List.mem_cons_of_mem c h))
    unfold segMatch
    rw [if_neg hcs]
    cases s with
    | nil => simp
    | cons d ds =>
      simp only [Bool.and_eq_true, Bool.or_eq_true, decide_eq_true_eq,
        List.cons.injEq]
      constructor
      · rintro ⟨hcd | hcd, hm⟩
        · exact absurd hcd hcq
        · exact ⟨hcd.symm, (ihs ds).mp hm⟩
      · rintro ⟨h1, h2⟩
        exact ⟨Or.inr h1.symm, (ihs ds).mpr h2⟩

/-- Without `*` and `?`, a one-segment glob matches exactly the one-segment
path equal to it. -/
theorem globMatch_single_literal (p : List Char) (hstar : '*' ∉ p) (hq : '?' ∉ p) :
    ∀ t : List (List Char), (globMatch [p] t = true ↔ t = [p]) := by
  intro t
  have hne : p ≠ ['*', '*'] := fun h => hstar (h ▸ (by simp))
  unfold globMatch
  rw [if_neg hne]
  cases t with
  | nil => simp
  | cons s t2 =>
    simp only [Bool.and_eq_true, List.cons.injEq]
    constructor
    · rintro ⟨hm, hrest⟩
      have ht2 : t2 = [] := by
        have : t2.isEmpty = true := hrest
        exact List.isEmpty_iff.mp this
      exact ⟨(segMatch_literal p hstar hq s).mp hm, ht2⟩
    · rintro ⟨h1, h2⟩
      subst h1 h2
      exact ⟨(segMatch_literal s hstar hq s).mpr rfl, rfl⟩

/-- A filter whose predicate selects exactly one element of a
duplicate-free list returns the singleton of that element. -/
theorem filter_eq_single (l : List (List Char)) (pred : List Char → Bool)
    (pv : List Char) (hnd : l.Nodup) (hp : pv ∈ l) (hpred : pred pv = true)
    (huniq : ∀ q ∈ l, pred q = true → q = pv) :
    l.filter pred = [pv] := by
  induction l with
  | nil => cases hp
  | cons a rest ih =>
    rcases List.pairwise_cons.mp hnd with ⟨hnotin, hndrest⟩
    rcases List.mem_cons.mp hp with rfl | hp2
    · rw [List.filter_cons, if_pos hpred]
      have hrest : rest.filter pred = [] := by
        rw [List.filter_eq_nil_iff]
        intro q hq hq2
        have := huniq q (List.mem_cons_of_mem pv hq) hq2
        subst this
        exact (hnotin q hq) rfl
      rw [hrest]
    · have hpa : pred a = false := by
        by_contra hcon
        have ha : pred a = true := eq_true_of_ne_false hcon
        have := huniq a (List.mem_cons_self a rest) ha
        subst this
        exact (hnotin a hp2) rfl
      rw [List.filter_cons, hpa]
      exact ih hndrest hp2
        (fun q hq hq2 => huniq q (List.mem_cons_of_mem a hq) hq2)

/-- C5 counterexample: a root that resolves to an existing regular file
whose basename contains a glob metacharacter.  The file `/w/a*b.txt`
exists; its basename is used as a fast-glob pattern, which also matches
the sibling `/w/axb.txt`, so expansion with the empty glob returns two
entries instead of exactly one entry equal to the file's basename. -/
theorem c5_counterexample :
    singlePathExpand ["/w/a*b.txt".toList, "/w/axb.txt".toList] ["/w".toList]
        "/w".toList "a*b.txt".toList [] =
      .ok ["a*b.txt".toList, "axb.txt".toList] ∧
    (["a*b.txt".toList, "axb.txt".toList] : List (List Char)).length ≠ 1 :=
  ⟨rfl, by decide⟩

/-- C5 (amended): for a root that resolves to an existing regular file
whose basename contains no glob metacharacter (`*` or `?`) and no
backslash, over a filesystem of distinct normal-form absolute paths:
root computation returns the file's parent directory as the root and the
basename as the glob, expansion with the empty glob returns exactly one
entry equal to the basename, and any non-empty caller-supplied glob fails
with the conflicting-glob error. -/
theorem c5_singleFileRoot_amended (fsFiles fsDirs : List (List Char))
    (ws root : List Char) (dsegs : List (List Char)) (base : List Char)
    (hgood : ∀ x ∈ dsegs ++ [base], goodSeg x = true)
    (hds : ∀ x ∈ dsegs, '\\' ∉ x)
    (hbs : '\\' ∉ base) (hstar : '*' ∉ base) (hqm : '?' ∉ base)
    (hres : posixResolve ws (toPosixChars root) = absOf (dsegs ++ [base]))
    (hmem : absOf (dsegs ++ [base]) ∈ fsFiles)
    (hfs : ∀ p ∈ fsFiles, isNormAbs p = true)
    (hnd : fsFiles.Nodup) :
    absoluteRootAndComputedGlob fsFiles fsDirs ws root [] =
      .ok (absOf dsegs, base, false) ∧
    singlePathExpand fsFiles fsDirs ws root [] = .ok [base] ∧
    (∀ glob : List Char, glob ≠ [] →
      singlePathExpand fsFiles fsDirs ws root glob =
        .error conflictingGlobMsg) := by
  have hgoodd : ∀ x ∈ dsegs, goodSeg x = true :=
    fun x hx => hgood x (List.mem_append_left [base] hx)
  have hbaseg : goodSeg base = true := hgood base (by simp)
  have hbprops : base ≠ [] ∧ '/' ∉ base ∧ base ≠ ['.'] ∧ base ≠ ['.', '.'] := by
    have h2 := hbaseg
    simp only [goodSeg, Bool.decide_and, Bool.and_eq_true, decide_eq_true_eq] at h2
    exact ⟨by simpa using h2.1, h2.2.1, h2.2.2.1, h2.2.2.2⟩
  have habs : absoluteRootAndComputedGlob fsFiles fsDirs ws root [] =
      .ok (absOf dsegs, base, false) := by
    unfold absoluteRootAndComputedGlob
    rw [hres, if_pos hmem, if_neg (by simp)]
    rw [posixDirname_absOf dsegs base hgood, posixBasename_absOf dsegs base hgood,
      toPosixChars_of_no_backslash base hbs]
  refine ⟨habs, ?_, ?_⟩
  · have hexp : expandGlob fsFiles (absOf dsegs) base = [base] := by
      unfold expandGlob
      rw [if_neg hbprops.1]
      have hpos : toPosixChars base = base := toPosixChars_of_no_backslash base hbs
      rw [hpos]
      have hnb : '\\' ∉ absOf dsegs := by
        intro hc
        unfold absOf at hc
        rcases List.mem_cons.mp hc with h | h
        · exact absurd h (by decide)
        · rcases mem_intercalate ['/'] dsegs '\\' h with h2 | ⟨z, hz, hcz⟩
          · exact absurd h2 (by decide)
          · exact hds z hz hcz
      have hcwd : resolveAbsSegs (absOf dsegs) = dsegs :=
        resolveAbsSegs_absOf dsegs hgoodd
      have hpv : resolveAbsSegs (absOf (dsegs ++ [base])) = dsegs ++ [base] :=
        resolveAbsSegs_absOf (dsegs ++ [base]) hgood
      have hpat : pathSegs base = [base] := by
        unfold pathSegs splitSlash
        rw [splitOnChar_sepFree '/' base hbprops.2.1]
        simp [hbprops.1]
      have hmatches : fgMatches fsFiles (absOf dsegs) base =
          [absOf (dsegs ++ [base])] := by
        unfold fgMatches
        refine filter_eq_single fsFiles _ (absOf (dsegs ++ [base])) hnd hmem ?_ ?_
        · rw [hcwd, hpv, hpat]
          simp only [Bool.and_eq_true, decide_eq_true_eq]
          refine ⟨⟨?_, by simp⟩, ?_⟩
          · exact List.isPrefixOf_iff_prefix.mpr ⟨[base], rfl⟩
          · rw [List.drop_left]
            exact (globMatch_single_literal base hstar hqm [base]).mpr rfl
        · intro q hq hq2
          obtain ⟨hrq, hpq, hgq⟩ := resolveAbsSegs_of_isNormAbs q (hfs q hq)
          rw [hcwd, hrq, hpat] at hq2
          simp only [Bool.and_eq_true, decide_eq_true_eq] at hq2
          obtain ⟨⟨hpre, _⟩, hgm⟩ := hq2
          rcases List.isPrefixOf_iff_prefix.mp hpre with ⟨t, ht⟩
          have hdrop : (pathSegs q).drop dsegs.length = t := by
            rw [← ht, List.drop_left]
          rw [hdrop] at hgm
          have := (globMatch_single_literal base hstar hqm t).mp hgm
          rw [hpq, ← ht, this]
      rw [hmatches]
      have hrel : posixRelative (toPosixChars (absOf dsegs))
          (absOf (dsegs ++ [base])) = base := by
        unfold posixRelative
        rw [toPosixChars_of_no_backslash (absOf dsegs) hnb, hcwd, hpv]
        unfold relSegsList
        rw [commonPrefixLen_append dsegs [base]]
        rw [Nat.sub_self, List.drop_left]
        simp [List.intercalate]
      rw [List.map_singleton, hrel]
      rfl
    unfold singlePathExpand
    rw [habs]
    show Except.ok (expandGlob fsFiles (absOf dsegs) base) = _
    rw [hexp]
  · intro glob hg
    unfold singlePathExpand absoluteRootAndComputedGlob
    rw [hres, if_pos hmem, if_pos hg]
    rfl

/-- Witness for the amended C5 on a one-file filesystem. -/
theorem c5_witness :
    absoluteRootAndComputedGlob ["/w/a.txt".toList] ["/w".toList] "/w".toList
        "a.txt".toList [] = .ok ("/w".toList, "a.txt".toList, false) ∧
    singlePathExpand ["/w/a.txt".toList] ["/w".toList] "/w".toList
        "a.txt".toList [] = .ok ["a.txt".toList] ∧
    singlePathExpand ["/w/a.txt".toList] ["/w".toList] "/w".toList
        "a.txt".toList "g".toList = .error conflictingGlobMsg := by
  have h := c5_singleFileRoot_amended ["/w/a.txt".toList] ["/w".toList]
    "/w".toList "a.txt".toList [['w']] "a.txt".toList
    (by decide) (by decide) (by decide) (by decide) (by decide)
    (by decide) (by decide) (by decide) (by decide)
  exact ⟨h.1, h.2.1, h.2.2 "g".toList (by decide)⟩

/-- C3 counterexample: a prefix with a leading slash survives into the
object key.  With prefix `/a` and file `f`, `computeDestinations` produces
the destination `/a/f`, which starts with `/`. -/
theorem c3_counterexample :
    (computeDestinations
        { givenRoot := "r".toList, absoluteRoot := "/w".toList,
          files := ["f".toList], pfx := "/a".toList,
          includeParent := false }).map (fun u => u.destination) =
      ["/a/f".toList] ∧
    ("/a/f".toList).head? = some '/' :=
  ⟨rfl, rfl⟩

/-- Normalization of a string with no leading slash, no backslash and no
`..` chunk yields a string with the same three properties. -/
theorem posixNormalize_clean (s : List Char)
    (h1 : s.head? ≠ some '/') (h2 : '\\' ∉ s)
    (h3 : ['.', '.'] ∉ pathSegs s) :
    (posixNormalize s).head? ≠ some '/' ∧ '\\' ∉ posixNormalize s ∧
      ['.', '.'] ∉ pathSegs (posixNormalize s) := by
  by_cases hs : s = []
  · subst hs
    refine ⟨by decide, by decide, by decide⟩
  · have hN : ∀ x ∈ normSegsAux (!decide (s.head? = some '/')) [] (splitSlash s),
        x ∈ pathSegs s ∧ x ≠ [] ∧ '/' ∉ x ∧ '\\' ∉ x ∧ x ≠ ['.', '.'] := by
      intro x hx
      rcases mem_normSegsAux _ (splitSlash s) [] x hx with h | ⟨hmem, hne, _⟩
      · cases h
      · have hseg : x ∈ pathSegs s := by
          unfold pathSegs
          exact List.mem_filter.mpr ⟨hmem, by simpa using hne⟩
        refine ⟨hseg, hne, sep_not_mem_splitOnChar '/' s x hmem, ?_, ?_⟩
        · intro hbs
          exact h2 (mem_of_mem_splitOnChar '/' s x hmem '\\' hbs)
        · intro hdd
          exact h3 (hdd ▸ hseg)
    unfold posixNormalize
    rw [if_neg hs]
    by_cases hb : normBody s = []
    · rw [if_pos hb, if_neg h1]
      by_cases ht : s.getLast? = some '/'
      · rw [if_pos ht]
        refine ⟨by decide, by decide, by decide⟩
      · rw [if_neg ht]
        refine ⟨by decide, by decide, by decide⟩
    · rw [if_neg hb, if_neg h1]
      have hNne : normSegsAux (!decide (s.head? = some '/')) [] (splitSlash s) ≠ [] := by
        intro hnil
        apply hb
        unfold normBody
        rw [hnil]
        rfl
      have hbodyprops : (normBody s).head? ≠ some '/' ∧ '\\' ∉ normBody s ∧
          ['.', '.'] ∉ pathSegs (normBody s) := by
        cases hNv : normSegsAux (!decide (s.head? = some '/')) [] (splitSlash s) with
        | nil => exact absurd hNv hNne
        | cons x rest =>
          have hxp := hN x (hNv ▸ List.mem_cons_self x rest)
          have hbodyeq : normBody s = List.intercalate ['/'] (x :: rest) := by
            unfold normBody
            rw [hNv]
          refine ⟨?_, ?_, ?_⟩
          · rw [hbodyeq, head?_intercalate ['/'] x rest hxp.2.1]
            intro hc
            cases hx : x with
            | nil => exact hxp.2.1 hx
            | cons c cs =>
              rw [hx] at hc
              simp only [List.head?_cons, Option.some.injEq] at hc
              exact hxp.2.2.1 (by rw [hx, hc]; exact List.mem_cons_self '/' cs)
          · rw [hbodyeq]
            intro hmem
            rcases mem_intercalate ['/'] (x :: rest) '\\' hmem with h | ⟨z, hz, hcz⟩
            · exact absurd h (by decide)
            · exact (hN z (hNv ▸ hz)).2.2.2.1 hcz
          · rw [hbodyeq]
            unfold pathSegs splitSlash
            rw [splitOnChar_intercalate_sepFree '/' (x :: rest) (by simp)
              (fun z hz => (hN z (hNv ▸ hz)).2.2.1)]
            rw [List.filter_eq_self.mpr
              (fun z hz => by simpa using (hN z (hNv ▸ hz)).2.1)]
            intro hdd
            exact (hN ['.', '.'] (hNv ▸ hdd)).2.2.2.2 rfl
      by_cases ht : s.getLast? = some '/'
      · rw [if_pos ht]
        refine ⟨?_, ?_, ?_⟩
        · rw [List.head?_append]
          cases hv : (normBody s).head? with
          | none =>
            exact absurd (by simpa using hv) hb
          | some c =>
            simpa [hv] using hbodyprops.1
        · intro hmem
          rcases List.mem_append.mp hmem with h | h
          · exact hbodyprops.2.1 h
          · exact absurd h (by decide)
        · unfold pathSegs splitSlash
          have : splitOnChar '/' (normBody s ++ ['/']) =
              splitOnChar '/' (normBody s) ++ [[]] := by
            have := splitOnChar_append '/' (normBody s) []
            simpa using this
          rw [this, List.filter_append]
          simp only [List.filter_cons, List.filter_nil]
          intro hmem
          rcases List.mem_append.mp hmem with h | h
          · exact hbodyprops.2.2 h
          · simp at h
      · rw [if_neg ht]
        exact hbodyprops

/-- Joining clean parts produces a clean path: no leading slash, no
backslash, no `..` chunk. -/
theorem posixJoin_clean (parts : List (List Char))
    (h : ∀ x ∈ parts,
      x.head? ≠ some '/' ∧ '\\' ∉ x ∧ ['.', '.'] ∉ pathSegs x) :
    (posixJoin parts).head? ≠ some '/' ∧ '\\' ∉ posixJoin parts ∧
      ['.', '.'] ∉ pathSegs (posixJoin parts) := by
  unfold posixJoin
  by_cases hne : parts.filter (· ≠ []) = []
  · rw [if_pos hne]
    exact ⟨by decide, by decide, by decide⟩
  · rw [if_neg hne]
    have hmemne : ∀ x ∈ parts.filter (· ≠ []), x ∈ parts ∧ x ≠ [] := by
      intro x hx
      exact ⟨List.mem_of_mem_filter hx, by simpa using List.of_mem_filter hx⟩
    apply posixNormalize_clean
    · cases hv : parts.filter (· ≠ []) with
      | nil => exact absurd hv hne
      | cons x rest =>
        have hx := hmemne x (hv ▸ List.mem_cons_self x rest)
        rw [head?_intercalate ['/'] x rest hx.2]
        exact (h x hx.1).1
    · intro hmem
      rcases mem_intercalate ['/'] _ '\\' hmem with h2 | ⟨z, hz, hcz⟩
      · exact absurd h2 (by decide)
      · exact (h z (hmemne z hz).1).2.1 hcz
    · rw [pathSegs_intercalate _ hne]
      intro hmem
      rcases List.mem_flatMap.mp hmem with ⟨z, hz, hdd⟩
      exact (h z (hmemne z hz).1).2.2 hdd

/-- The replacement used by `toPosixPath` never leaves a backslash. -/
theorem backslash_not_mem_toPosixChars (s : List Char) :
    '\\' ∉ toPosixChars s := by
  intro h
  rcases List.mem_map.mp h with ⟨d, _, hd⟩
  by_cases hdb : d = '\\'
  · rw [if_pos hdb] at hd
    exact absurd hd (by decide)
  · rw [if_neg hdb] at hd
    exact hdb hd

/-- The basename is the empty string or one of the slash-split chunks. -/
theorem posixBasename_cases (s : List Char) :
    posixBasename s = [] ∨ posixBasename s ∈ splitSlash s := by
  unfold posixBasename
  cases hv : ((splitSlash s).reverse.dropWhile (· = [])).head? with
  | none => exact Or.inl rfl
  | some x =>
    refine Or.inr ?_
    have hx : x ∈ (splitSlash s).reverse.dropWhile (· = []) :=
      List.mem_of_mem_head? hv
    have hx2 : x ∈ (splitSlash s).reverse :=
      (List.dropWhile_sublist _).mem hx
    simpa using List.mem_reverse.mp hx2

/-- C3 (amended): provided the prefix and the relative file names carry no
leading `/`, no backslash and no `..` chunk, and the basename of the given
root is not `..`, every object key produced by destination computation has
no leading `/`, no backslash and no `..` chunk.  (The counterexample shows
the unrestricted claim is false: a hostile prefix such as `/a`, a file
name such as `../f`, or a backslash survive into the key.) -/
theorem c3_destinations_clean_amended (opts : ClientComputeDestinationOptions)
    (hpfx : opts.pfx.head? ≠ some '/' ∧ '\\' ∉ opts.pfx ∧
      ['.', '.'] ∉ pathSegs opts.pfx)
    (hfiles : ∀ f ∈ opts.files,
      f.head? ≠ some '/' ∧ '\\' ∉ f ∧ ['.', '.'] ∉ pathSegs f)
    (hroot : posixBasename (toPosixChars opts.givenRoot) ≠ ['.', '.']) :
    ∀ u ∈ computeDestinations opts,
      u.destination.head? ≠ some '/' ∧ '\\' ∉ u.destination ∧
        ['.', '.'] ∉ pathSegs u.destination := by
  intro u hu
  rcases List.mem_map.mp hu with ⟨name, hname, rfl⟩
  show (computeDestination opts.givenRoot opts.pfx opts.includeParent name).head? ≠
      some '/' ∧ _ ∧ _
  unfold computeDestination
  apply posixJoin_clean
  intro x hx
  have hbase : (if opts.includeParent then
      posixBasename (toPosixChars opts.givenRoot) else []).head? ≠ some '/' ∧
      '\\' ∉ (if opts.includeParent then
        posixBasename (toPosixChars opts.givenRoot) else []) ∧
      ['.', '.'] ∉ pathSegs (if opts.includeParent then
        posixBasename (toPosixChars opts.givenRoot) else []) := by
    by_cases hip : opts.includeParent = true
    · rw [if_pos hip]
      rcases posixBasename_cases (toPosixChars opts.givenRoot) with hb | hb
      · rw [hb]
        exact ⟨by decide, by decide, by decide⟩
      · have hsf : '/' ∉ posixBasename (toPosixChars opts.givenRoot) :=
          sep_not_mem_splitOnChar '/' _ _ hb
        refine ⟨?_, ?_, ?_⟩
        · intro hcon
          exact hsf (List.mem_of_mem_head? hcon)
        · intro hcon
          exact backslash_not_mem_toPosixChars opts.givenRoot
            (mem_of_mem_splitOnChar '/' _ _ hb '\\' hcon)
        · by_cases hbn : posixBasename (toPosixChars opts.givenRoot) = []
          · rw [hbn]
            decide
          · unfold pathSegs splitSlash
            rw [splitOnChar_sepFree '/' _ hsf]
            intro hcon
            simp only [List.filter_cons, List.filter_nil] at hcon
            by_cases hdec : (posixBasename (toPosixChars opts.givenRoot)) ≠ []
            · rw [if_pos (by simpa using hdec)] at hcon
              rcases List.mem_singleton.mp (by simpa using hcon) with h
              exact hroot h.symm
            · exact hdec hbn
    · rw [if_neg hip]
      exact ⟨by decide, by decide, by decide⟩
  rcases List.mem_cons.mp hx with rfl | hx2
  · exact hpfx
  · rcases List.mem_cons.mp hx2 with rfl | hx3
    · exact hbase
    · rcases List.mem_cons.mp hx3 with rfl | hx4
      · exact hfiles x hname
      · cases hx4

/-- Witness for the amended C3 on a concrete destination computation. -/
theorem c3_witness :
    ("p/bar/sub/f.txt".toList).head? ≠ some '/' ∧
      '\\' ∉ "p/bar/sub/f.txt".toList ∧
      ['.', '.'] ∉ pathSegs "p/bar/sub/f.txt".toList := by
  have h := c3_destinations_clean_amended
    { givenRoot := "foo/bar".toList, absoluteRoot := "/w".toList,
      files := ["sub/f.txt".toList], pfx := "p".toList, includeParent := true }
    ⟨by decide, by decide, by decide⟩
    (by
      intro f hf
      rcases List.mem_singleton.mp hf with rfl
      exact ⟨by decide, by decide, by decide⟩)
    (by decide)
  exact h { source := "/w/sub/f.txt".toList,
            destination := "p/bar/sub/f.txt".toList } (by decide)

/-! ### Lemmas for the multiple-path branch -/

/-- Membership in the first-seen de-duplication. -/
theorem mem_dedupFirstSeenAux (l : List (List Char)) :
    ∀ (seen : List (List Char)) (y : List Char),
      y ∈ dedupFirstSeenAux seen l ↔ y ∈ l ∧ y ∉ seen := by
  induction l with
  | nil =>
    intro seen y
    simp [dedupFirstSeenAux]
  | cons x rest ih =>
    intro seen y
    unfold dedupFirstSeenAux
    by_cases hx : x ∈ seen
    · rw [if_pos hx, ih seen y]
      constructor
      · rintro ⟨h1, h2⟩
        exact ⟨List.mem_cons_of_mem x h1, h2⟩
      · rintro ⟨h1, h2⟩
        rcases List.mem_cons.mp h1 with rfl | h3
        · exact absurd hx h2
        · exact ⟨h3, h2⟩
    · rw [if_neg hx]
      constructor
      · intro h
        rcases List.mem_cons.mp h with rfl | h2
        · exact ⟨List.mem_cons_self _ _, hx⟩
        · rcases (ih (x :: seen) y).mp h2 with ⟨h3, h4⟩
          exact ⟨List.mem_cons_of_mem x h3,
            fun hc => h4 (List.mem_cons_of_mem x hc)⟩
      · rintro ⟨h1, h2⟩
        by_cases hyx : y = x
        · subst hyx
          exact List.mem_cons_self _ _
        · rcases List.mem_cons.mp h1 with h3 | h3
          · exact absurd h3 hyx
          · exact List.mem_cons_of_mem x ((ih (x :: seen) y).mpr
              ⟨h3, fun hc => (List.mem_cons.mp hc).elim hyx h2⟩)

/-- The first-seen de-duplication is duplicate-free. -/
theorem nodup_dedupFirstSeenAux (l : List (List Char)) :
    ∀ seen, (dedupFirstSeenAux seen l).Nodup := by
  induction l with
  | nil =>
    intro seen
    simp [dedupFirstSeenAux]
  | cons x rest ih =>
    intro seen
    unfold dedupFirstSeenAux
    by_cases hx : x ∈ seen
    · rw [if_pos hx]
      exact ih seen
    · rw [if_neg hx]
      refine List.nodup_cons.mpr ⟨?_, ih (x :: seen)⟩
      intro hmem
      exact ((mem_dedupFirstSeenAux rest (x :: seen) x).mp hmem).2
        (List.mem_cons_self x seen)

/-- The first-seen de-duplication preserves the relative order of the
kept elements. -/
theorem sublist_dedupFirstSeenAux (l : List (List Char)) :
    ∀ seen, (dedupFirstSeenAux seen l).Sublist l := by
  induction l with
  | nil =>
    intro seen
    simp [dedupFirstSeenAux]
  | cons x rest ih =>
    intro seen
    unfold dedupFirstSeenAux
    by_cases hx : x ∈ seen
    · rw [if_pos hx]
      exact (ih seen).cons x
    · rw [if_neg hx]
      exact (ih (x :: seen)).cons₂ x

/-- When every root resolves, the accumulation loop of the multiple-path
branch returns the per-root contributions concatenated in root order. -/
theorem collectMultiFiles_ok (fsFiles fsDirs : List (List Char))
    (ws glob : List Char) :
    ∀ ps : List (List Char),
      (∀ p ∈ ps, ∃ t, absoluteRootAndComputedGlob fsFiles fsDirs ws p glob = .ok t) →
      collectMultiFiles fsFiles fsDirs ws glob ps =
        .ok (ps.flatMap (pathRelFiles fsFiles fsDirs ws glob)) := by
  intro ps
  induction ps with
  | nil => intro _; rfl
  | cons p rest ih =>
    intro hok
    rcases hok p (List.mem_cons_self p rest) with ⟨⟨ar, cg, d⟩, ht⟩
    have hrest := ih (fun q hq => hok q (List.mem_cons_of_mem p hq))
    have hrel : pathRelFiles fsFiles fsDirs ws glob p =
        (expandGlob fsFiles ar cg).map
          (fun f => posixRelative ws (posixJoin [ar, f])) := by
      unfold pathRelFiles
      rw [ht]
    unfold collectMultiFiles
    rw [ht, hrest]
    rw [List.flatMap_cons, hrel]
    rfl

/-- C9: with multiple newline-separated roots (after trimming and dropping
empty lines), each root is expanded independently against the same glob;
the files are re-expressed relative to the workspace root, concatenated in
root order, and de-duplicated keeping first occurrences without
re-sorting; the reported root is the workspace and is marked as a
directory.  The resulting list is duplicate-free, is a sublist of the
concatenation (order preserved, no re-sort), and contains exactly the
elements of the concatenation. -/
theorem c9_processMultiplePaths_multi (fsFiles fsDirs : List (List Char))
    (ws pathInput glob : List Char)
    (hmulti : 2 ≤
      ((((splitOnChar '\n' pathInput).map trimChars).filter (· ≠ [])).length))
    (hok : ∀ p ∈ ((splitOnChar '\n' pathInput).map trimChars).filter (· ≠ []),
      ∃ t, absoluteRootAndComputedGlob fsFiles fsDirs ws p glob = .ok t) :
    processMultiplePaths fsFiles fsDirs ws pathInput glob =
      .ok { files := dedupFirstSeen
              (((((splitOnChar '\n' pathInput).map trimChars).filter (· ≠ []))).flatMap
                (pathRelFiles fsFiles fsDirs ws glob)),
            absoluteRoot := ws, givenRoot := ws, rootIsDir := true } ∧
    (dedupFirstSeen
      (((((splitOnChar '\n' pathInput).map trimChars).filter (· ≠ []))).flatMap
        (pathRelFiles fsFiles fsDirs ws glob))).Nodup ∧
    (dedupFirstSeen
      (((((splitOnChar '\n' pathInput).map trimChars).filter (· ≠ []))).flatMap
        (pathRelFiles fsFiles fsDirs ws glob))).Sublist
      (((((splitOnChar '\n' pathInput).map trimChars).filter (· ≠ []))).flatMap
        (pathRelFiles fsFiles fsDirs ws glob)) ∧
    (∀ f, f ∈ dedupFirstSeen
        (((((splitOnChar '\n' pathInput).map trimChars).filter (· ≠ []))).flatMap
          (pathRelFiles fsFiles fsDirs ws glob)) ↔
      f ∈ ((((splitOnChar '\n' pathInput).map trimChars).filter (· ≠ []))).flatMap
        (pathRelFiles fsFiles fsDirs ws glob)) := by
  refine ⟨?_, nodup_dedupFirstSeenAux _ [], sublist_dedupFirstSeenAux _ [],
    fun f => by
      unfold dedupFirstSeen
      rw [mem_dedupFirstSeenAux _ [] f]
      simp⟩
  cases hv : ((splitOnChar '\n' pathInput).map trimChars).filter (· ≠ []) with
  | nil =>
    rw [hv] at hmulti
    simp at hmulti
  | cons a t =>
    cases t with
    | nil =>
      rw [hv] at hmulti
      simp at hmulti
    | cons b t2 =>
      have hok2 : ∀ p ∈ a :: b :: t2,
          ∃ t, absoluteRootAndComputedGlob fsFiles fsDirs ws p glob = .ok t :=
        hv ▸ hok
      have hcoll := collectMultiFiles_ok fsFiles fsDirs ws glob (a :: b :: t2) hok2
      unfold processMultiplePaths
      rw [hv]
      show (do
          let allFiles ← collectMultiFiles fsFiles fsDirs ws glob (a :: b :: t2)
          pure { files := dedupFirstSeen allFiles, absoluteRoot := ws,
                 givenRoot := ws, rootIsDir := true } :
        Except String ProcessedPaths) = _
      rw [hcoll]
      rfl

/-- Witness for C9: two roots `a` and `b` below the workspace `/w`, each
holding a file `x.txt`; the result lists both files relative to `/w`, in
root order. -/
theorem c9_witness :
    processMultiplePaths ["/w/a/x.txt".toList, "/w/b/x.txt".toList]
        ["/w".toList, "/w/a".toList, "/w/b".toList]
        "/w".toList "a\nb".toList [] =
      .ok { files := ["a/x.txt".toList, "b/x.txt".toList],
            absoluteRoot := "/w".toList, givenRoot := "/w".toList,
            rootIsDir := true } ∧
    (["a/x.txt".toList, "b/x.txt".toList] : List (List Char)).Nodup := by
  have h := c9_processMultiplePaths_multi
    ["/w/a/x.txt".toList, "/w/b/x.txt".toList]
    ["/w".toList, "/w/a".toList, "/w/b".toList]
    "/w".toList "a\nb".toList []
    (by decide)
    (by
      intro p hp
      have he : ((splitOnChar '\n' "a\nb".toList).map trimChars).filter (· ≠ []) =
          ["a".toList, "b".toList] := by decide
      rw [he] at hp
      rcases List.mem_cons.mp hp with rfl | hp3
      · exact ⟨("/w/a".toList, [], true), rfl⟩
      · rcases List.mem_cons.mp hp3 with rfl | hp4
        · exact ⟨("/w/b".toList, [], true), rfl⟩
        · cases hp4)
  refine ⟨?_, by decide⟩
  rw [h.1]
  rfl
